import Mathlib

/-!
Verification of the identifier-normalization engine of the
kubespray-collection-fixer repository (`app/fix_role_name.py` and
`app/fix_role_meta.py`), via a shallow embedding in Lean 4.

Strings are modelled as `List Char`.  Python's `str.lower()` is modelled on
the ASCII range (the only range relevant to the role-name alphabet
`[a-z0-9_]` that every downstream check uses).  Character classes are
expressed through ASCII code points (`Char.toNat`) so that arithmetic
reasoning is available.
-/

/-- `"role_"`, the placeholder prepended by `fix_role_name` (source line 67/70). -/
def rolePrefixCs : List Char := ['r', 'o', 'l', 'e', '_']

/-- Membership in the character class `[a-z0-9_]` of the validation regex
(source line 49). -/
def isNameChar (c : Char) : Bool :=
  (97 ≤ c.toNat && c.toNat ≤ 122) || (48 ≤ c.toNat && c.toNat ≤ 57) || c.toNat == 95

/-- ASCII decimal digit, the model of `str.isdigit` on the relevant alphabet
(source lines 52 and 66). -/
def isAsciiDigitCh (c : Char) : Bool := 48 ≤ c.toNat && c.toNat ≤ 57

/-- ASCII uppercase letter. -/
def isAsciiUpper (c : Char) : Bool := 65 ≤ c.toNat && c.toNat ≤ 90

/-- ASCII model of Python `str.lower` on a single character. -/
def pyLower (c : Char) : Char :=
  if isAsciiUpper c then Char.ofNat (c.toNat + 32) else c

/-- Model of `re.match(r'^[a-z0-9_]+$', name)` succeeding: Python's `$` also
matches just before one trailing newline, so a single final `'\n'` is
tolerated. -/
def pyFullLineMatch (s : List Char) : Bool :=
  let core := if s.getLast? == some '\n' then s.dropLast else s
  !core.isEmpty && core.all isNameChar

/-- `is_valid_role_name` (source lines 43-54): length in [2,55], the regex
`^[a-z0-9_]+$` matches, and the first character is not a digit. -/
def is_valid_role_name (name : List Char) : Bool :=
  if !(2 ≤ name.length && name.length ≤ 55) then false
  else if !pyFullLineMatch name then false
  else if isAsciiDigitCh name.headI then false
  else true

/-- Stages 1-3 of `fix_role_name` (source lines 60-64): lowercase, replace
hyphens by underscores, strip characters outside `[a-z0-9_]`. -/
def fixStage3 (name : List Char) : List Char :=
  ((name.map pyLower).map (fun c => if c.toNat == 45 then '_' else c)).filter isNameChar

/-- Stage 4 of `fix_role_name` (source lines 66-67): prepend `role_` when the
result starts with a digit. -/
def fixStage4 (name : List Char) : List Char :=
  if !(fixStage3 name).isEmpty && isAsciiDigitCh (fixStage3 name).headI then
    rolePrefixCs ++ fixStage3 name
  else fixStage3 name

/-- Stage 5 of `fix_role_name` (source lines 69-70): prepend `role_` when the
result is shorter than 2 characters. -/
def fixStage5 (name : List Char) : List Char :=
  if (fixStage4 name).length < 2 then rolePrefixCs ++ fixStage4 name
  else fixStage4 name

/-- `fix_role_name` (source lines 57-74): the stages above followed by
truncation to 55 characters (source lines 72-73). -/
def fix_role_name (name : List Char) : List Char :=
  if (fixStage5 name).length > 55 then (fixStage5 name).take 55
  else fixStage5 name

theorem map_id_of_mem {f : Char → Char} :
    ∀ l : List Char, (∀ c ∈ l, f c = c) → l.map f = l
  | [], _ => rfl
  | c :: t, h => by
      simp only [List.map_cons, h c (by simp)]
      rw [map_id_of_mem t (fun x hx => h x (by simp [hx]))]

theorem filter_eq_self_of_mem {p : Char → Bool} :
    ∀ l : List Char, (∀ c ∈ l, p c = true) → l.filter p = l
  | [], _ => rfl
  | c :: t, h => by
      simp only [List.filter_cons, h c (by simp), if_true]
      rw [filter_eq_self_of_mem t (fun x hx => h x (by simp [hx]))]

theorem rolePrefixCs_all_nameChar : ∀ c ∈ rolePrefixCs, isNameChar c = true := by
  decide

theorem fixStage3_all_nameChar (s : List Char) :
    ∀ c ∈ fixStage3 s, isNameChar c = true :=
  fun _ hc => List.of_mem_filter hc

theorem fixStage4_all_nameChar (s : List Char) :
    ∀ c ∈ fixStage4 s, isNameChar c = true := by
  unfold fixStage4
  intro c hc
  split at hc
  · rcases List.mem_append.mp hc with h1 | h2
    · exact rolePrefixCs_all_nameChar c h1
    · exact fixStage3_all_nameChar s c h2
  · exact fixStage3_all_nameChar s c hc

theorem fixStage5_all_nameChar (s : List Char) :
    ∀ c ∈ fixStage5 s, isNameChar c = true := by
  unfold fixStage5
  intro c hc
  split at hc
  · rcases List.mem_append.mp hc with h1 | h2
    · exact rolePrefixCs_all_nameChar c h1
    · exact fixStage4_all_nameChar s c h2
  · exact fixStage4_all_nameChar s c hc

theorem fix_role_name_all_nameChar (s : List Char) :
    ∀ c ∈ fix_role_name s, isNameChar c = true := by
  unfold fix_role_name
  intro c hc
  split at hc
  · exact fixStage5_all_nameChar s c (List.mem_of_mem_take hc)
  · exact fixStage5_all_nameChar s c hc

theorem fixStage5_length_ge (s : List Char) : 2 ≤ (fixStage5 s).length := by
  unfold fixStage5
  split
  · rw [List.length_append]
    have : rolePrefixCs.length = 5 := rfl
    omega
  · omega

theorem fix_role_name_length (s : List Char) :
    2 ≤ (fix_role_name s).length ∧ (fix_role_name s).length ≤ 55 := by
  unfold fix_role_name
  have h5 := fixStage5_length_ge s
  split
  · rw [List.length_take]
    omega
  · omega

theorem headI_rolePrefixCs_append (l : List Char) : (rolePrefixCs ++ l).headI = 'r' := rfl

theorem fixStage4_head_digit_nil (s : List Char)
    (h : isAsciiDigitCh (fixStage4 s).headI = true) : fixStage4 s = [] := by
  unfold fixStage4 at h ⊢
  by_cases hc : (!(fixStage3 s).isEmpty && isAsciiDigitCh (fixStage3 s).headI) = true
  · rw [if_pos hc] at h
    rw [headI_rolePrefixCs_append] at h
    exact absurd h (by decide)
  · rw [if_neg hc] at h
    rw [if_neg hc]
    cases h3 : fixStage3 s with
    | nil => rfl
    | cons a t =>
        exfalso
        rw [h3] at h hc
        simp_all

theorem fixStage5_head_not_digit (s : List Char) :
    isAsciiDigitCh (fixStage5 s).headI = false := by
  unfold fixStage5
  split
  · rw [headI_rolePrefixCs_append]
    decide
  · rename_i hlen
    by_cases h : isAsciiDigitCh (fixStage4 s).headI = true
    · exfalso
      have hemp := fixStage4_head_digit_nil s h
      rw [hemp] at hlen
      simp at hlen
    · simpa using h

theorem headI_take_55 (l : List Char) (h : l ≠ []) : (l.take 55).headI = l.headI := by
  cases l with
  | nil => simp at h
  | cons a t => simp [List.take]

theorem fix_role_name_head_not_digit (s : List Char) :
    isAsciiDigitCh (fix_role_name s).headI = false := by
  unfold fix_role_name
  split
  · have h5ne : fixStage5 s ≠ [] := by
      have := fixStage5_length_ge s
      intro hnil
      rw [hnil] at this
      simp at this
    rw [headI_take_55 _ h5ne]
    exact fixStage5_head_not_digit s
  · exact fixStage5_head_not_digit s

theorem newline_not_nameChar (c : Char) (h : isNameChar c = true) : ¬ c = '\n' := by
  intro hc
  rw [hc] at h
  simp [isNameChar] at h

theorem mem_of_getLast?_eq_some {l : List Char} {c : Char}
    (h : l.getLast? = some c) : c ∈ l := by
  obtain ⟨hne, hx⟩ := List.mem_getLast?_eq_getLast (Option.mem_def.mpr h)
  rw [hx]
  exact List.getLast_mem hne

theorem fix_role_name_getLast_ne_newline (s : List Char) :
    ¬ (fix_role_name s).getLast? = some '\n' := by
  intro h
  exact newline_not_nameChar _
    (fix_role_name_all_nameChar s _ (mem_of_getLast?_eq_some h)) rfl

theorem fix_role_name_ne_nil (s : List Char) : fix_role_name s ≠ [] := by
  have := fix_role_name_length s
  intro h
  rw [h] at this
  simp at this

/-- Core fact behind the rename-map invariant: the normalizer always produces
a Galaxy-valid name. -/
theorem is_valid_fix_role_name (s : List Char) :
    is_valid_role_name (fix_role_name s) = true := by
  unfold is_valid_role_name
  have hlen := fix_role_name_length s
  have hmatch : pyFullLineMatch (fix_role_name s) = true := by
    unfold pyFullLineMatch
    have hne : ((fix_role_name s).getLast? == some '\n') = false := by
      simp only [beq_eq_false_iff_ne, ne_eq]
      exact fix_role_name_getLast_ne_newline s
    rw [hne]
    simp only [Bool.false_eq_true, if_false, Bool.and_eq_true_iff, Bool.not_eq_true']
    constructor
    · rw [List.isEmpty_eq_false]
      exact fix_role_name_ne_nil s
    · rw [List.all_eq_true]
      exact fix_role_name_all_nameChar s
  rw [hmatch]
  have hdig := fix_role_name_head_not_digit s
  rw [hdig]
  simp [hlen.1, hlen.2]

theorem nameChar_ranges (c : Char) (h : isNameChar c = true) :
    (97 ≤ c.toNat ∧ c.toNat ≤ 122) ∨ (48 ≤ c.toNat ∧ c.toNat ≤ 57) ∨ c.toNat = 95 := by
  simpa only [isNameChar, Bool.or_eq_true_iff, Bool.and_eq_true_iff, beq_iff_eq,
    decide_eq_true_eq, or_assoc] using h

theorem nameChar_not_upper (c : Char) (h : isNameChar c = true) :
    isAsciiUpper c = false := by
  have h' := nameChar_ranges c h
  cases hu : isAsciiUpper c with
  | false => rfl
  | true =>
      exfalso
      have hu' : 65 ≤ c.toNat ∧ c.toNat ≤ 90 := by
        simpa only [isAsciiUpper, Bool.and_eq_true_iff, decide_eq_true_eq] using hu
      omega

theorem nameChar_not_hyphen (c : Char) (h : isNameChar c = true) :
    (c.toNat == 45) = false := by
  have h' := nameChar_ranges c h
  cases hh : c.toNat == 45 with
  | false => rfl
  | true =>
      exfalso
      have : c.toNat = 45 := by simpa using hh
      omega

/-- On a string that is already entirely in `[a-z0-9_]`, the first three
stages of the normalizer are the identity. -/
theorem fixStage3_of_clean (l : List Char) (h : ∀ c ∈ l, isNameChar c = true) :
    fixStage3 l = l := by
  unfold fixStage3
  rw [map_id_of_mem l (fun c hc => by simp [pyLower, nameChar_not_upper c (h c hc)])]
  rw [map_id_of_mem l (fun c hc => by simp [nameChar_not_hyphen c (h c hc)])]
  exact filter_eq_self_of_mem l h

theorem fix_role_name_of_clean (l : List Char)
    (hchars : ∀ c ∈ l, isNameChar c = true)
    (hlo : 2 ≤ l.length) (hhi : l.length ≤ 55)
    (hhead : isAsciiDigitCh l.headI = false) :
    fix_role_name l = l := by
  have h3 : fixStage3 l = l := fixStage3_of_clean l hchars
  have h4 : fixStage4 l = l := by
    unfold fixStage4
    rw [h3, hhead]
    simp
  have h5 : fixStage5 l = l := by
    unfold fixStage5
    rw [h4]
    split
    · omega
    · rfl
  unfold fix_role_name
  rw [h5]
  split
  · omega
  · rfl

/-- C9 — Normalizer idempotence: `fix_role_name (fix_role_name x) = fix_role_name x`
for every string `x`. -/
theorem fix_role_name_idempotent (x : List Char) :
    fix_role_name (fix_role_name x) = fix_role_name x := by
  have hlen := fix_role_name_length x
  exact fix_role_name_of_clean (fix_role_name x)
    (fix_role_name_all_nameChar x) hlen.1 hlen.2
    (fix_role_name_head_not_digit x)

/-!
## Reference rewriting (`update_role_reference`, source lines 158-185)
-/

/-- Assoc-list model of the Python dict `rename_map` (first binding wins;
the engine never inserts a key twice). -/
def lookupName : List (List Char × List Char) → List Char → Option (List Char)
  | [], _ => none
  | (k, v) :: rest, n => if k = n then some v else lookupName rest n

/-- Python `result.split('/')` (ASCII 47). -/
def splitOnSlash : List Char → List (List Char)
  | [] => [[]]
  | c :: rest =>
    let r := splitOnSlash rest
    if c.toNat == 47 then [] :: r
    else (c :: r.headI) :: r.tail

/-- Python `'/' in result`. -/
def containsSlash (s : List Char) : Bool := s.any (fun c => c.toNat == 47)

/-- Fuel-indexed body of Python `str.replace` (replace every leftmost,
non-overlapping occurrence).  The fuel is the length of the subject string;
each step consumes at least one character. -/
def pyReplaceFuel : Nat → List Char → List Char → List Char → List Char
  | 0, s, _, _ => s
  | _ + 1, [], _, _ => []
  | fuel + 1, c :: rest, pat, rep =>
    if !pat.isEmpty && pat.isPrefixOf (c :: rest) then
      rep ++ pyReplaceFuel fuel ((c :: rest).drop pat.length) pat rep
    else c :: pyReplaceFuel fuel rest pat rep

/-- Python `s.replace(pat, rep)`; the engine only calls it with a nonempty
pattern (`'.' + old_name`). -/
def pyReplace (s pat rep : List Char) : List Char := pyReplaceFuel s.length s pat rep

/-- `update_role_reference` (source lines 158-185), the closure inside
`update_yaml_file`: slash-qualified values have each segment looked up in the
rename map and their final segment compared against `old_name`; otherwise a
bare match is replaced, or a dot-qualified suffix match goes through
`str.replace`. -/
def update_role_reference (rename_map : List (List Char × List Char))
    (old_name new_name : List Char) (role_ref : List Char) : List Char :=
  if containsSlash role_ref then
    let parts2 := (splitOnSlash role_ref).map (fun p => (lookupName rename_map p).getD p)
    if parts2.getLast? == some old_name then
      List.intercalate ['/'] (parts2.dropLast ++ [new_name])
    else
      List.intercalate ['/'] parts2
  else
    if role_ref == old_name then new_name
    else if ('.' :: old_name).isSuffixOf role_ref then
      pyReplace role_ref ('.' :: old_name) ('.' :: new_name)
    else role_ref

/-- C6 — counterexample: for the slash-free value `x.ab.ab` with
`old_name = ab`, `new_name = cd`, the hypotheses of the claim hold, but the
code rewrites the earlier occurrence of `.ab` too (Python `str.replace`
replaces all occurrences), producing `x.cd.cd` instead of the claimed
`x.ab.cd`. -/
theorem update_role_reference_not_suffix_only :
    containsSlash "x.ab.ab".toList = false ∧
    (('.' :: "ab".toList).isSuffixOf "x.ab.ab".toList) = true ∧
    update_role_reference [] "ab".toList "cd".toList "x.ab.ab".toList ≠ "x.ab.cd".toList ∧
    update_role_reference [] "ab".toList "cd".toList "x.ab.ab".toList = "x.cd.cd".toList := by
  refine ⟨by decide, by decide, by decide, by decide⟩

/-- C6 amended — on a slash-free value ending in `'.' + old_name`, the code
returns Python `str.replace` of the whole value: every leftmost
non-overlapping occurrence of `'.' + old_name` is replaced with
`'.' + new_name`, not only the final suffix. -/
theorem update_role_reference_dot_qualified (rename_map : List (List Char × List Char))
    (old_name new_name v : List Char)
    (hslash : containsSlash v = false)
    (hsuffix : (('.' :: old_name).isSuffixOf v) = true) :
    update_role_reference rename_map old_name new_name v =
      pyReplace v ('.' :: old_name) ('.' :: new_name) := by
  unfold update_role_reference
  rw [hslash]
  have hne : (v == old_name) = false := by
    cases hveq : v == old_name with
    | false => rfl
    | true =>
        exfalso
        have hv : v = old_name := by simpa using hveq
        subst hv
        have hsuf := List.isSuffixOf_iff_suffix.mp hsuffix
        have hlen := hsuf.length_le
        simp at hlen
  simp only [Bool.false_eq_true, if_false, hne, hsuffix, if_true]

/-- Witness for the amended C6 theorem at a concrete input. -/
theorem update_role_reference_dot_qualified_witness :
    containsSlash "y.ab".toList = false ∧
    (('.' :: "ab".toList).isSuffixOf "y.ab".toList) = true ∧
    update_role_reference [] "ab".toList "cd".toList "y.ab".toList =
      pyReplace "y.ab".toList ('.' :: "ab".toList) ('.' :: "cd".toList) :=
  ⟨by decide, by decide,
    update_role_reference_dot_qualified [] "ab".toList "cd".toList "y.ab".toList
      (by decide) (by decide)⟩

/-!
## Filesystem model

A directory tree is modelled by a single inductive: a forest of named
entries, where an entry is a directory (with a nested forest), a YAML
document (stored in parsed form; its on-disk text is the canonical
serialization, see `fileText` below), a plain file, or a symlink.  Python's
`Path.iterdir` enumerates entries in the forest's order.
-/

/-- Shorthand for string literals as `List Char`. -/
def strL (s : String) : List Char := s.toList

/-- A parsed YAML document value, as produced by `yaml.safe_load`: scalars
(strings, booleans, null) plus block sequences and mappings, flattened into
one inductive so that all recursion is structural. -/
inductive YVal where
  | str : List Char → YVal
  | bool : Bool → YVal
  | null : YVal
  | seqNil : YVal
  | seqCons : YVal → YVal → YVal
  | mapNil : YVal
  | mapCons : List Char → YVal → YVal → YVal
deriving DecidableEq, Repr

/-- A forest of named filesystem entries. -/
inductive FSForest where
  | nil : FSForest
  | consDir : List Char → FSForest → FSForest → FSForest
  | consYml : List Char → YVal → FSForest → FSForest
  | consFile : List Char → FSForest → FSForest
  | consLink : List Char → FSForest → FSForest
deriving DecidableEq, Repr

/-- One entry as seen by name lookup. -/
inductive EntryView where
  | dir : FSForest → EntryView
  | yml : YVal → EntryView
  | plain : EntryView
  | link : EntryView
deriving DecidableEq, Repr

/-- First entry with the given name (filesystem names are unique in any real
tree). -/
def FSForest.findEntry : FSForest → List Char → Option EntryView
  | .nil, _ => none
  | .consDir n c rest, m => if n = m then some (.dir c) else rest.findEntry m
  | .consYml n d rest, m => if n = m then some (.yml d) else rest.findEntry m
  | .consFile n rest, m => if n = m then some .plain else rest.findEntry m
  | .consLink n rest, m => if n = m then some .link else rest.findEntry m

/-- `os.path.exists`-style check used for the `meta`/`tasks`/`defaults`/`vars`
markers (an entry of any kind counts). -/
def FSForest.hasEntry (f : FSForest) (n : List Char) : Bool := (f.findEntry n).isSome

/-!
## Namespace scanner (`find_roles`, source lines 77-125)
-/

/-- A discovered role: its path (relative to the `roles` directory), its
name, and its depth (`len(entry.relative_to(base_path).parts)`). -/
structure RoleEntry where
  path : List (List Char)
  name : List Char
  depth : Nat
deriving DecidableEq, Repr

/-- Source lines 103-106: a directory is a role when it has a `meta` or a
`tasks` child. -/
def isRoleDir (children : FSForest) : Bool :=
  children.hasEntry (strL "meta") || children.hasEntry (strL "tasks")

/-- `search_for_roles` (source lines 95-118): record each role directory and
keep recursing, both into roles and into non-role directories.  Non-directory
entries are skipped (`entry.is_dir()`); symlinks are modelled as
non-directories. -/
def searchForRoles : FSForest → List (List Char) → List RoleEntry
  | .nil, _ => []
  | .consDir n c rest, p =>
      (if isRoleDir c then
        { path := p ++ [n], name := n, depth := p.length + 1 } :: searchForRoles c (p ++ [n])
      else searchForRoles c (p ++ [n])) ++ searchForRoles rest p
  | .consYml _ _ rest, p => searchForRoles rest p
  | .consFile _ rest, p => searchForRoles rest p
  | .consLink _ rest, p => searchForRoles rest p

/-- Stable insertion for descending depth: an element is placed after every
earlier element of greater-or-equal depth, which reproduces the output of
Python's stable `list.sort(key=depth, reverse=True)`. -/
def insertDepthDesc (e : RoleEntry) : List RoleEntry → List RoleEntry
  | [] => [e]
  | x :: xs => if x.depth ≤ e.depth then e :: x :: xs else x :: insertDepthDesc e xs

/-- Stable sort by descending depth (source line 123). -/
def sortDepthDesc : List RoleEntry → List RoleEntry
  | [] => []
  | x :: xs => insertDepthDesc x (sortDepthDesc xs)

/-- The children of `<root>/roles`; an absent or non-directory `roles` entry
behaves like an empty directory (a non-directory makes `iterdir` raise
`NotADirectoryError`, an `OSError` that source line 116 swallows, and a
missing one is caught by the `os.path.exists` check on line 91). -/
def rolesChildren (root : FSForest) : FSForest :=
  match root.findEntry (strL "roles") with
  | some (.dir c) => c
  | _ => .nil

/-- `find_roles` (source lines 77-125) over the collection root: search under
`<root>/roles`, sort deepest first, return `(path, name)` pairs.  Paths are
relative to the `roles` directory. -/
def find_roles (root : FSForest) : List (List (List Char) × List Char) :=
  (sortDepthDesc (searchForRoles (rolesChildren root) [])).map (fun e => (e.path, e.name))

theorem searchForRoles_depth_eq :
    ∀ (f : FSForest) (p : List (List Char)) (e : RoleEntry),
      e ∈ searchForRoles f p → e.depth = e.path.length ∧ p.length < e.path.length := by
  intro f
  induction f with
  | nil => intro p e h; simp [searchForRoles] at h
  | consDir n c rest ihc ihrest =>
      intro p e h
      simp only [searchForRoles] at h
      rcases List.mem_append.mp h with h1 | h2
      · by_cases hrole : isRoleDir c = true
        · rw [if_pos hrole] at h1
          rcases List.mem_cons.mp h1 with he | hin
          · subst he
            constructor
            · simp
            · simp
          · have := ihc (p ++ [n]) e hin
            refine ⟨this.1, ?_⟩
            have hp : (p ++ [n]).length = p.length + 1 := by simp
            omega
        · rw [if_neg hrole] at h1
          have := ihc (p ++ [n]) e h1
          refine ⟨this.1, ?_⟩
          have hp : (p ++ [n]).length = p.length + 1 := by simp
          omega
      · exact ihrest p e h2
  | consYml n d rest ihrest => intro p e h; exact ihrest p e h
  | consFile n rest ihrest => intro p e h; exact ihrest p e h
  | consLink n rest ihrest => intro p e h; exact ihrest p e h

theorem mem_insertDepthDesc {e x : RoleEntry} :
    ∀ l : List RoleEntry, x ∈ insertDepthDesc e l → x = e ∨ x ∈ l := by
  intro l
  induction l with
  | nil =>
      intro h
      simp only [insertDepthDesc, List.mem_singleton] at h
      exact Or.inl h
  | cons a t ih =>
      intro h
      simp only [insertDepthDesc] at h
      split at h
      · rcases List.mem_cons.mp h with h1 | h2
        · exact Or.inl h1
        · exact Or.inr h2
      · rcases List.mem_cons.mp h with h1 | h2
        · exact Or.inr (by simp [h1])
        · rcases ih h2 with h3 | h4
          · exact Or.inl h3
          · exact Or.inr (by simp [h4])

theorem mem_sortDepthDesc {x : RoleEntry} :
    ∀ l : List RoleEntry, x ∈ sortDepthDesc l → x ∈ l := by
  intro l
  induction l with
  | nil => intro h; simp [sortDepthDesc] at h
  | cons a t ih =>
      intro h
      rcases mem_insertDepthDesc _ h with h1 | h2
      · simp [h1]
      · simp [ih h2]

theorem pairwise_insertDepthDesc (e : RoleEntry) :
    ∀ l : List RoleEntry, List.Pairwise (fun a b => b.depth ≤ a.depth) l →
      List.Pairwise (fun a b => b.depth ≤ a.depth) (insertDepthDesc e l) := by
  intro l
  induction l with
  | nil => intro _; simp [insertDepthDesc]
  | cons a t ih =>
      intro hp
      rcases List.pairwise_cons.mp hp with ⟨ha, ht⟩
      simp only [insertDepthDesc]
      split
      · rename_i hle
        refine List.pairwise_cons.mpr ⟨?_, hp⟩
        intro b hb
        rcases List.mem_cons.mp hb with h1 | h2
        · subst h1; exact hle
        · exact le_trans (ha b h2) hle
      · rename_i hgt
        refine List.pairwise_cons.mpr ⟨?_, ih ht⟩
        intro b hb
        rcases mem_insertDepthDesc _ hb with h1 | h2
        · subst h1; omega
        · exact ha b h2

theorem pairwise_sortDepthDesc :
    ∀ l : List RoleEntry, List.Pairwise (fun a b => b.depth ≤ a.depth) (sortDepthDesc l) := by
  intro l
  induction l with
  | nil => simp [sortDepthDesc]
  | cons a t ih => exact pairwise_insertDepthDesc a _ ih

/-- C3 — Deepest-first ordering: in the sequence returned by `find_roles`,
whenever the path of the entry at position `i` is a proper path-prefix
(ancestor) of the path of the entry at position `j`, the descendant comes
strictly first (`j < i`); hence the executor, which processes the sequence
left to right, handles every discovered descendant before its ancestor. -/
theorem find_roles_deepest_first (root : FSForest) (i j : Nat)
    (hi : i < (find_roles root).length) (hj : j < (find_roles root).length)
    (hpre : ((find_roles root)[i]).1 <+: ((find_roles root)[j]).1)
    (hne : ((find_roles root)[i]).1 ≠ ((find_roles root)[j]).1) :
    j < i := by
  unfold find_roles at hi hj hpre hne
  set c := rolesChildren root with hc
  set sorted := sortDepthDesc (searchForRoles c []) with hsorted
  have hi' : i < sorted.length := by simpa using hi
  have hj' : j < sorted.length := by simpa using hj
  have hgeti : ((sorted.map (fun e => (e.path, e.name)))[i]).1 = (sorted[i]).path := by
    simp
  have hgetj : ((sorted.map (fun e => (e.path, e.name)))[j]).1 = (sorted[j]).path := by
    simp
  rw [hgeti, hgetj] at hpre hne
  have hdi := searchForRoles_depth_eq c [] (sorted[i])
    (mem_sortDepthDesc _ (by exact List.getElem_mem hi'))
  have hdj := searchForRoles_depth_eq c [] (sorted[j])
    (mem_sortDepthDesc _ (by exact List.getElem_mem hj'))
  have hlen : (sorted[i]).path.length < (sorted[j]).path.length := by
    have := hpre.length_le
    rcases lt_or_eq_of_le this with h1 | h2
    · exact h1
    · exact absurd (hpre.eq_of_length h2) hne
  by_contra hcon
  push_neg at hcon
  rcases lt_or_eq_of_le hcon with hij | hij
  · have hpw := pairwise_sortDepthDesc (searchForRoles c [])
    rw [← hsorted] at hpw
    have := List.pairwise_iff_getElem.mp hpw i j hi' hj' hij
    omega
  · subst hij
    exact hne rfl

/-- A two-level tree: `roles/aa` (a role, has `meta`) containing nested role
`roles/aa/bb` (has `meta`). -/
def c3World : FSForest :=
  .consDir (strL "roles")
    (.consDir (strL "aa")
      (.consDir (strL "meta") .nil
        (.consDir (strL "bb") (.consDir (strL "meta") .nil .nil) .nil))
      .nil)
    .nil

/-- Witness for C3: on `c3World` the nested role `aa/bb` (position 0) comes
before its ancestor `aa` (position 1). -/
theorem find_roles_deepest_first_witness :
    0 < 1 ∧ find_roles c3World =
      [([strL "aa", strL "bb"], strL "bb"), ([strL "aa"], strL "aa")] :=
  ⟨find_roles_deepest_first c3World 1 0 (by decide) (by decide) (by decide) (by decide),
   by decide⟩

/-!
## Directory rename executor (`rename_role`, source lines 250-283)
-/

/-- Remove the entry (or entries) with the given name; model of `os.remove`
on a symlink and `shutil.rmtree`/detach on a directory. -/
def FSForest.eraseEntry : FSForest → List Char → FSForest
  | .nil, _ => .nil
  | .consDir n c rest, m =>
      if n = m then rest.eraseEntry m else .consDir n c (rest.eraseEntry m)
  | .consYml n d rest, m =>
      if n = m then rest.eraseEntry m else .consYml n d (rest.eraseEntry m)
  | .consFile n rest, m =>
      if n = m then rest.eraseEntry m else .consFile n (rest.eraseEntry m)
  | .consLink n rest, m =>
      if n = m then rest.eraseEntry m else .consLink n (rest.eraseEntry m)

/-- Attach a new entry at the end of a directory's listing. -/
def FSForest.appendEntry : FSForest → List Char → EntryView → FSForest
  | .nil, n, .dir c => .consDir n c .nil
  | .nil, n, .yml d => .consYml n d .nil
  | .nil, n, .plain => .consFile n .nil
  | .nil, n, .link => .consLink n .nil
  | .consDir m c rest, n, e => .consDir m c (rest.appendEntry n e)
  | .consYml m d rest, n, e => .consYml m d (rest.appendEntry n e)
  | .consFile m rest, n, e => .consFile m (rest.appendEntry n e)
  | .consLink m rest, n, e => .consLink m (rest.appendEntry n e)

/-- `shutil.move(role_path, new_path)` within one parent directory, for a
target that does not currently exist: detach the source entry and re-attach
it under the new name. -/
def moveEntry (f : FSForest) (old new : List Char) : FSForest :=
  match f.findEntry old with
  | some e => (f.eraseEntry old).appendEntry new e
  | none => f

/-- Result of one `rename_role` call: the returned boolean, the parent
directory's new listing, and the number of filesystem mutations performed. -/
structure RenameOut where
  ok : Bool
  fs : FSForest
  muts : Nat
deriving DecidableEq, Repr

/-- `rename_role` (source lines 250-283), acting on the listing of
`os.path.dirname(role_path)`.  Branch order follows the source: an existing
target that is a symlink is removed and the source moved in (lines 257-263);
an existing real directory makes the source a stale duplicate that is
deleted (lines 266-271); any other existing target (a plain file, which in
this model includes YAML files) fails this one rename (lines 273-276); a
free target receives an ordinary move (lines 280-283). -/
def rename_role (parent : FSForest) (old_name new_name : List Char) (dry : Bool) :
    RenameOut :=
  match parent.findEntry new_name with
  | some .link =>
      if dry then ⟨true, parent, 0⟩
      else ⟨true, moveEntry (parent.eraseEntry new_name) old_name new_name, 2⟩
  | some (.dir _) =>
      if dry then ⟨true, parent, 0⟩ else ⟨true, parent.eraseEntry old_name, 1⟩
  | some (.yml _) => ⟨false, parent, 0⟩
  | some .plain => ⟨false, parent, 0⟩
  | none =>
      if dry then ⟨true, parent, 0⟩ else ⟨true, moveEntry parent old_name new_name, 1⟩

theorem findEntry_eraseEntry_self :
    ∀ (f : FSForest) (n : List Char), (f.eraseEntry n).findEntry n = none := by
  intro f n
  induction f with
  | nil => rfl
  | consDir m c rest ihc ihrest =>
      simp only [FSForest.eraseEntry]
      split
      · exact ihrest
      · simp only [FSForest.findEntry]
        rename_i hne
        rw [if_neg hne]
        exact ihrest
  | consYml m d rest ihrest =>
      simp only [FSForest.eraseEntry]
      split
      · exact ihrest
      · simp only [FSForest.findEntry]
        rename_i hne
        rw [if_neg hne]
        exact ihrest
  | consFile m rest ihrest =>
      simp only [FSForest.eraseEntry]
      split
      · exact ihrest
      · simp only [FSForest.findEntry]
        rename_i hne
        rw [if_neg hne]
        exact ihrest
  | consLink m rest ihrest =>
      simp only [FSForest.eraseEntry]
      split
      · exact ihrest
      · simp only [FSForest.findEntry]
        rename_i hne
        rw [if_neg hne]
        exact ihrest

theorem findEntry_eraseEntry_ne (p : List Char) :
    ∀ (f : FSForest) (n : List Char), n ≠ p → (f.eraseEntry p).findEntry n = f.findEntry n := by
  intro f
  induction f with
  | nil => intro n _; rfl
  | consDir m c rest ihc ihrest =>
      intro n hnp
      simp only [FSForest.eraseEntry]
      by_cases hmp : m = p
      · rw [if_pos hmp]
        rw [ihrest n hnp]
        simp only [FSForest.findEntry]
        rw [if_neg (by rw [hmp]; exact fun h => hnp h.symm)]
      · rw [if_neg hmp]
        simp only [FSForest.findEntry]
        by_cases hmn : m = n
        · rw [if_pos hmn, if_pos hmn]
        · rw [if_neg hmn, if_neg hmn]
          exact ihrest n hnp
  | consYml m d rest ihrest =>
      intro n hnp
      simp only [FSForest.eraseEntry]
      by_cases hmp : m = p
      · rw [if_pos hmp]
        rw [ihrest n hnp]
        simp only [FSForest.findEntry]
        rw [if_neg (by rw [hmp]; exact fun h => hnp h.symm)]
      · rw [if_neg hmp]
        simp only [FSForest.findEntry]
        by_cases hmn : m = n
        · rw [if_pos hmn, if_pos hmn]
        · rw [if_neg hmn, if_neg hmn]
          exact ihrest n hnp
  | consFile m rest ihrest =>
      intro n hnp
      simp only [FSForest.eraseEntry]
      by_cases hmp : m = p
      · rw [if_pos hmp]
        rw [ihrest n hnp]
        simp only [FSForest.findEntry]
        rw [if_neg (by rw [hmp]; exact fun h => hnp h.symm)]
      · rw [if_neg hmp]
        simp only [FSForest.findEntry]
        by_cases hmn : m = n
        · rw [if_pos hmn, if_pos hmn]
        · rw [if_neg hmn, if_neg hmn]
          exact ihrest n hnp
  | consLink m rest ihrest =>
      intro n hnp
      simp only [FSForest.eraseEntry]
      by_cases hmp : m = p
      · rw [if_pos hmp]
        rw [ihrest n hnp]
        simp only [FSForest.findEntry]
        rw [if_neg (by rw [hmp]; exact fun h => hnp h.symm)]
      · rw [if_neg hmp]
        simp only [FSForest.findEntry]
        by_cases hmn : m = n
        · rw [if_pos hmn, if_pos hmn]
        · rw [if_neg hmn, if_neg hmn]
          exact ihrest n hnp

theorem findEntry_appendEntry_self :
    ∀ (f : FSForest) (n : List Char) (e : EntryView), f.findEntry n = none →
      (f.appendEntry n e).findEntry n = some e := by
  intro f
  induction f with
  | nil =>
      intro n e _
      cases e <;> simp [FSForest.appendEntry, FSForest.findEntry]
  | consDir m c rest ihc ihrest =>
      intro n e h
      simp only [FSForest.findEntry] at h
      simp only [FSForest.appendEntry, FSForest.findEntry]
      by_cases hmn : m = n
      · rw [if_pos hmn] at h; exact absurd h (by simp)
      · rw [if_neg hmn] at h
        rw [if_neg hmn]
        exact ihrest n e h
  | consYml m d rest ihrest =>
      intro n e h
      simp only [FSForest.findEntry] at h
      simp only [FSForest.appendEntry, FSForest.findEntry]
      by_cases hmn : m = n
      · rw [if_pos hmn] at h; exact absurd h (by simp)
      · rw [if_neg hmn] at h
        rw [if_neg hmn]
        exact ihrest n e h
  | consFile m rest ihrest =>
      intro n e h
      simp only [FSForest.findEntry] at h
      simp only [FSForest.appendEntry, FSForest.findEntry]
      by_cases hmn : m = n
      · rw [if_pos hmn] at h; exact absurd h (by simp)
      · rw [if_neg hmn] at h
        rw [if_neg hmn]
        exact ihrest n e h
  | consLink m rest ihrest =>
      intro n e h
      simp only [FSForest.findEntry] at h
      simp only [FSForest.appendEntry, FSForest.findEntry]
      by_cases hmn : m = n
      · rw [if_pos hmn] at h; exact absurd h (by simp)
      · rw [if_neg hmn] at h
        rw [if_neg hmn]
        exact ihrest n e h

theorem findEntry_appendEntry_ne (p : List Char) (e : EntryView) :
    ∀ (f : FSForest) (n : List Char), n ≠ p →
      (f.appendEntry p e).findEntry n = f.findEntry n := by
  intro f
  induction f with
  | nil =>
      intro n hnp
      cases e <;> simp only [FSForest.appendEntry, FSForest.findEntry] <;>
        rw [if_neg (fun h => hnp h.symm)]
  | consDir m c rest ihc ihrest =>
      intro n hnp
      simp only [FSForest.appendEntry, FSForest.findEntry]
      by_cases hmn : m = n
      · rw [if_pos hmn, if_pos hmn]
      · rw [if_neg hmn, if_neg hmn]
        exact ihrest n hnp
  | consYml m d rest ihrest =>
      intro n hnp
      simp only [FSForest.appendEntry, FSForest.findEntry]
      by_cases hmn : m = n
      · rw [if_pos hmn, if_pos hmn]
      · rw [if_neg hmn, if_neg hmn]
        exact ihrest n hnp
  | consFile m rest ihrest =>
      intro n hnp
      simp only [FSForest.appendEntry, FSForest.findEntry]
      by_cases hmn : m = n
      · rw [if_pos hmn, if_pos hmn]
      · rw [if_neg hmn, if_neg hmn]
        exact ihrest n hnp
  | consLink m rest ihrest =>
      intro n hnp
      simp only [FSForest.appendEntry, FSForest.findEntry]
      by_cases hmn : m = n
      · rw [if_pos hmn, if_pos hmn]
      · rw [if_neg hmn, if_neg hmn]
        exact ihrest n hnp

theorem moveEntry_spec (f : FSForest) (old new : List Char) (e : EntryView)
    (hsrc : f.findEntry old = some e) (hne : old ≠ new)
    (htgt : f.findEntry new = none) :
    (moveEntry f old new).findEntry old = none ∧
    (moveEntry f old new).findEntry new = some e := by
  unfold moveEntry
  rw [hsrc]
  constructor
  · rw [findEntry_appendEntry_ne new e _ old hne]
    exact findEntry_eraseEntry_self f old
  · apply findEntry_appendEntry_self
    rw [findEntry_eraseEntry_ne old _ new (fun h => hne h.symm)]
    exact htgt

/-- C4 — target-exists policy of `rename_role`, in the source's branch
order: a symlink target is removed and the source moved into its place; a
real-directory target survives unchanged while the source is deleted
without content migration; a plain-file target fails this one rename and
leaves the listing untouched (the caller's loop then continues with the
rest of the batch); an absent target receives an ordinary move. -/
theorem rename_role_target_policy (parent : FSForest) (old new : List Char)
    (hne : old ≠ new) (srcE : EntryView) (hsrc : parent.findEntry old = some srcE) :
    (parent.findEntry new = some .link →
       (rename_role parent old new false).ok = true ∧
       (rename_role parent old new false).fs.findEntry old = none ∧
       (rename_role parent old new false).fs.findEntry new = some srcE) ∧
    (∀ c, parent.findEntry new = some (.dir c) →
       (rename_role parent old new false).ok = true ∧
       (rename_role parent old new false).fs.findEntry old = none ∧
       (rename_role parent old new false).fs.findEntry new = some (.dir c)) ∧
    (parent.findEntry new = some .plain →
       rename_role parent old new false = ⟨false, parent, 0⟩) ∧
    (parent.findEntry new = none →
       (rename_role parent old new false).ok = true ∧
       (rename_role parent old new false).fs.findEntry old = none ∧
       (rename_role parent old new false).fs.findEntry new = some srcE) := by
  refine ⟨?_, ?_, ?_, ?_⟩
  · intro htgt
    unfold rename_role
    rw [htgt]
    simp only [if_neg (by simp : ¬ false = true)]
    have hsrc' : (parent.eraseEntry new).findEntry old = some srcE := by
      rw [findEntry_eraseEntry_ne new _ old hne]
      exact hsrc
    have htgt' : (parent.eraseEntry new).findEntry new = none :=
      findEntry_eraseEntry_self parent new
    have := moveEntry_spec (parent.eraseEntry new) old new srcE hsrc' hne htgt'
    exact ⟨by trivial, this.1, this.2⟩
  · intro c htgt
    unfold rename_role
    rw [htgt]
    simp only [if_neg (by simp : ¬ false = true)]
    refine ⟨by trivial, ?_, ?_⟩
    · exact findEntry_eraseEntry_self parent old
    · rw [findEntry_eraseEntry_ne old _ new (fun h => hne h.symm)]
      exact htgt
  · intro htgt
    unfold rename_role
    rw [htgt]
  · intro htgt
    unfold rename_role
    rw [htgt]
    simp only [if_neg (by simp : ¬ false = true)]
    have := moveEntry_spec parent old new srcE hsrc hne htgt
    exact ⟨by trivial, this.1, this.2⟩

/-- The claim's concrete scenario: an invalid `my-role` (a role directory)
next to a pre-existing real directory `my_role` with its own content. -/
def c4Parent : FSForest :=
  .consDir (strL "my-role") (.consDir (strL "tasks") .nil .nil)
    (.consDir (strL "my_role") (.consFile (strL "keep") .nil) .nil)

/-- Witness for C4 at the claim's concrete scenario: after the run,
`my-role` no longer exists and `my_role` still holds its original content. -/
theorem rename_role_target_policy_witness :
    (rename_role c4Parent (strL "my-role") (strL "my_role") false).ok = true ∧
    (rename_role c4Parent (strL "my-role") (strL "my_role") false).fs.findEntry
      (strL "my-role") = none ∧
    (rename_role c4Parent (strL "my-role") (strL "my_role") false).fs.findEntry
      (strL "my_role") = some (.dir (.consFile (strL "keep") .nil)) :=
  (rename_role_target_policy c4Parent (strL "my-role") (strL "my_role") (by decide)
    (.dir (.consDir (strL "tasks") .nil .nil)) (by decide)).2.1
    (.consFile (strL "keep") .nil) (by decide)

/-!
## Role discovery of `fix_role_meta.py` (`main`, source lines 177-234)
-/

/-- The reserved marker-directory names (`fix_role_meta.py` lines 189-190). -/
def skipDirsL : List (List Char) :=
  [strL "meta", strL "tasks", strL "handlers", strL "defaults", strL "vars",
   strL "files", strL "templates", strL "library", strL "molecule", strL "tests"]

/-- All directory entries strictly below a forest, with their paths
(`Path.rglob("*")` restricted to directories), in DFS order. -/
def allDirEntries : FSForest → List (List Char) → List (List (List Char) × FSForest)
  | .nil, _ => []
  | .consDir n c rest, p =>
      (p ++ [n], c) :: (allDirEntries c (p ++ [n]) ++ allDirEntries rest p)
  | .consYml _ _ rest, p => allDirEntries rest p
  | .consFile _ rest, p => allDirEntries rest p
  | .consLink _ rest, p => allDirEntries rest p

/-- Resolve a path to the children forest of the directory it denotes. -/
def resolveDir : FSForest → List (List Char) → Option FSForest
  | f, [] => some f
  | f, n :: rest =>
      match f.findEntry n with
      | some (.dir c) => resolveDir c rest
      | _ => none

/-- `os.path.exists` along a path: all intermediate components must be
directories, the final component may be an entry of any kind. -/
def pathExists : FSForest → List (List Char) → Bool
  | _, [] => true
  | f, n :: rest =>
      match rest with
      | [] => f.hasEntry n
      | _ =>
          match f.findEntry n with
          | some (.dir c) => pathExists c rest
          | _ => false

/-- The names of a directory's immediate entries. -/
def childNames : FSForest → List (List Char)
  | .nil => []
  | .consDir n _ rest => n :: childNames rest
  | .consYml n _ rest => n :: childNames rest
  | .consFile n rest => n :: childNames rest
  | .consLink n rest => n :: childNames rest

/-- Well-formedness of a tree as a filesystem: sibling names are distinct at
every level (true of every real directory tree). -/
def wfNames : FSForest → Bool
  | .nil => true
  | .consDir n c rest => !((childNames rest).contains n) && (wfNames c && wfNames rest)
  | .consYml n _ rest => !((childNames rest).contains n) && wfNames rest
  | .consFile n rest => !((childNames rest).contains n) && wfNames rest
  | .consLink n rest => !((childNames rest).contains n) && wfNames rest

/-- `fix_role_meta.py` lines 222-227: an immediate child that is a
non-reserved directory with a `tasks` or `meta` child. -/
def anySubRole : FSForest → Bool
  | .nil => false
  | .consDir n cc rest =>
      (!(skipDirsL.contains n) &&
        (cc.hasEntry (strL "tasks") || cc.hasEntry (strL "meta"))) || anySubRole rest
  | .consYml _ _ rest => anySubRole rest
  | .consFile _ rest => anySubRole rest
  | .consLink _ rest => anySubRole rest

/-- Does a directory have a `meta` subdirectory containing `main.yml`? -/
def hasMetaMainYml (c : FSForest) : Bool :=
  match c.findEntry (strL "meta") with
  | some (.dir mc) => mc.hasEntry (strL "main.yml")
  | _ => false

/-- `glob(root + "/**/roles/**/meta/main.yml", recursive=True)`
(`fix_role_meta.py` lines 180-181): directories whose path contains a
`roles` segment and that hold `meta/main.yml`. -/
def globMetaMain (root : FSForest) : List (List (List Char)) :=
  ((allDirEntries root []).filter
    (fun qc => qc.1.contains (strL "roles") && hasMetaMainYml qc.2)).map
    (fun qc => qc.1 ++ [strL "meta", strL "main.yml"])

/-- `fix_role_meta.py` lines 193-208: every `tasks` directory with a
`main.yml`/`main.yaml` queues its parent's `meta/main.yml` when that file
does not exist.  Paths are relative to the `roles` directory. -/
def tasksScanRel (rc : FSForest) : List (List (List Char)) :=
  (allDirEntries rc []).filterMap (fun qc =>
    if (qc.1.getLast? == some (strL "tasks")) &&
       (qc.2.hasEntry (strL "main.yml") || qc.2.hasEntry (strL "main.yaml")) then
      if pathExists rc (qc.1.dropLast ++ [strL "meta", strL "main.yml"]) then none
      else some (qc.1.dropLast ++ [strL "meta", strL "main.yml"])
    else none)

/-- `fix_role_meta.py` lines 211-232: every non-reserved directory with a
`defaults` or `vars` child or a sub-role queues its own `meta/main.yml`
when that file does not exist.  Paths are relative to the `roles`
directory. -/
def parentScanRel (rc : FSForest) : List (List (List Char)) :=
  (allDirEntries rc []).filterMap (fun qc =>
    if !(skipDirsL.contains (qc.1.getLast?.getD [])) &&
       (qc.2.hasEntry (strL "defaults") || qc.2.hasEntry (strL "vars") || anySubRole qc.2) then
      if pathExists rc (qc.1 ++ [strL "meta", strL "main.yml"]) then none
      else some (qc.1 ++ [strL "meta", strL "main.yml"])
    else none)

/-- The set (as a list; the source dedups and sorts, which leaves membership
unchanged) of `meta/main.yml` paths that `fix_role_meta.main` will create or
fix, rooted at the collection root. -/
def metaFilesQueued (root : FSForest) : List (List (List Char)) :=
  globMetaMain root ++
    ((tasksScanRel (rolesChildren root)).map (fun q => strL "roles" :: q) ++
     (parentScanRel (rolesChildren root)).map (fun q => strL "roles" :: q))

theorem allDirEntries_shift :
    ∀ (f : FSForest) (q : List (List Char)),
      allDirEntries f q = (allDirEntries f []).map (fun e => (q ++ e.1, e.2)) := by
  intro f
  induction f with
  | nil => intro q; rfl
  | consDir n c rest ihc ihrest =>
      intro q
      simp only [allDirEntries, List.map_cons, List.map_append, List.nil_append]
      refine congrArg₂ _ (by simp) ?_
      rw [ihc (q ++ [n]), ihc [n], ihrest q, List.map_map]
      refine congrArg₂ _ ?_ rfl
      apply List.map_congr_left
      intro e _
      simp
  | consYml n d rest ihrest => intro q; simp only [allDirEntries]; exact ihrest q
  | consFile n rest ihrest => intro q; simp only [allDirEntries]; exact ihrest q
  | consLink n rest ihrest => intro q; simp only [allDirEntries]; exact ihrest q

theorem findEntry_some_mem_childNames :
    ∀ (f : FSForest) (n : List Char) (e : EntryView),
      f.findEntry n = some e → n ∈ childNames f := by
  intro f
  induction f with
  | nil => intro n e h; exact absurd h (by simp [FSForest.findEntry])
  | consDir m c rest ihc ihrest =>
      intro n e h
      simp only [FSForest.findEntry] at h
      simp only [childNames, List.mem_cons]
      by_cases hm : m = n
      · exact Or.inl hm.symm
      · rw [if_neg hm] at h; exact Or.inr (ihrest n e h)
  | consYml m d rest ihrest =>
      intro n e h
      simp only [FSForest.findEntry] at h
      simp only [childNames, List.mem_cons]
      by_cases hm : m = n
      · exact Or.inl hm.symm
      · rw [if_neg hm] at h; exact Or.inr (ihrest n e h)
  | consFile m rest ihrest =>
      intro n e h
      simp only [FSForest.findEntry] at h
      simp only [childNames, List.mem_cons]
      by_cases hm : m = n
      · exact Or.inl hm.symm
      · rw [if_neg hm] at h; exact Or.inr (ihrest n e h)
  | consLink m rest ihrest =>
      intro n e h
      simp only [FSForest.findEntry] at h
      simp only [childNames, List.mem_cons]
      by_cases hm : m = n
      · exact Or.inl hm.symm
      · rw [if_neg hm] at h; exact Or.inr (ihrest n e h)

theorem resolveDir_cons_mem_childNames (f : FSForest) (n : List Char)
    (rest : List (List Char)) (c : FSForest)
    (h : resolveDir f (n :: rest) = some c) : n ∈ childNames f := by
  simp only [resolveDir] at h
  cases hf : f.findEntry n with
  | none => rw [hf] at h; exact absurd h (by simp)
  | some e =>
      cases e with
      | dir c0 => exact findEntry_some_mem_childNames f n _ hf
      | yml d => rw [hf] at h; exact absurd h (by simp)
      | plain => rw [hf] at h; exact absurd h (by simp)
      | link => rw [hf] at h; exact absurd h (by simp)

theorem resolveDir_consYml_iff (m0 : List Char) (d : YVal) (rest : FSForest)
    (hnmem : m0 ∉ childNames rest) (p : List (List Char)) (c : FSForest) (hp : p ≠ []) :
    (resolveDir (.consYml m0 d rest) p = some c ↔ resolveDir rest p = some c) := by
  cases p with
  | nil => exact absurd rfl hp
  | cons m rest' =>
      constructor
      · intro h
        simp only [resolveDir, FSForest.findEntry] at h
        by_cases hm : m0 = m
        · rw [if_pos hm] at h; exact absurd h (by simp)
        · rw [if_neg hm] at h
          simp only [resolveDir]
          exact h
      · intro h
        have hmem := resolveDir_cons_mem_childNames rest m rest' c h
        have hm : ¬ m0 = m := fun he => hnmem (he ▸ hmem)
        simp only [resolveDir, FSForest.findEntry, if_neg hm]
        simp only [resolveDir] at h
        exact h

theorem resolveDir_consFile_iff (m0 : List Char) (rest : FSForest)
    (hnmem : m0 ∉ childNames rest) (p : List (List Char)) (c : FSForest) (hp : p ≠ []) :
    (resolveDir (.consFile m0 rest) p = some c ↔ resolveDir rest p = some c) := by
  cases p with
  | nil => exact absurd rfl hp
  | cons m rest' =>
      constructor
      · intro h
        simp only [resolveDir, FSForest.findEntry] at h
        by_cases hm : m0 = m
        · rw [if_pos hm] at h; exact absurd h (by simp)
        · rw [if_neg hm] at h
          simp only [resolveDir]
          exact h
      · intro h
        have hmem := resolveDir_cons_mem_childNames rest m rest' c h
        have hm : ¬ m0 = m := fun he => hnmem (he ▸ hmem)
        simp only [resolveDir, FSForest.findEntry, if_neg hm]
        simp only [resolveDir] at h
        exact h

theorem resolveDir_consLink_iff (m0 : List Char) (rest : FSForest)
    (hnmem : m0 ∉ childNames rest) (p : List (List Char)) (c : FSForest) (hp : p ≠ []) :
    (resolveDir (.consLink m0 rest) p = some c ↔ resolveDir rest p = some c) := by
  cases p with
  | nil => exact absurd rfl hp
  | cons m rest' =>
      constructor
      · intro h
        simp only [resolveDir, FSForest.findEntry] at h
        by_cases hm : m0 = m
        · rw [if_pos hm] at h; exact absurd h (by simp)
        · rw [if_neg hm] at h
          simp only [resolveDir]
          exact h
      · intro h
        have hmem := resolveDir_cons_mem_childNames rest m rest' c h
        have hm : ¬ m0 = m := fun he => hnmem (he ▸ hmem)
        simp only [resolveDir, FSForest.findEntry, if_neg hm]
        simp only [resolveDir] at h
        exact h

theorem resolveDir_consDir_ne (n : List Char) (c0 rest : FSForest)
    (m : List Char) (rest' : List (List Char)) (hm : ¬ n = m) :
    resolveDir (.consDir n c0 rest) (m :: rest') = resolveDir rest (m :: rest') := by
  simp only [resolveDir, FSForest.findEntry, if_neg hm]

theorem contains_of_mem {l : List (List Char)} {a : List Char} (h : a ∈ l) :
    l.contains a = true :=
  List.contains_iff_exists_mem_beq.mpr ⟨a, h, by simp⟩

/-- Under distinct sibling names, membership in the directory enumeration is
exactly directory resolution: the path determines the subtree. -/
theorem mem_allDirEntries_iff_resolveDir :
    ∀ (f : FSForest), wfNames f = true → ∀ (p : List (List Char)) (c : FSForest),
      ((p, c) ∈ allDirEntries f [] ↔ (p ≠ [] ∧ resolveDir f p = some c)) := by
  intro f
  induction f with
  | nil =>
      intro _ p c
      constructor
      · intro h; exact absurd h (by simp [allDirEntries])
      · rintro ⟨hne, hres⟩
        cases p with
        | nil => exact absurd rfl hne
        | cons n rest => simp [resolveDir, FSForest.findEntry] at hres
  | consDir n c0 rest ihc ihrest =>
      intro hwf p c
      have hwf' : ¬ (childNames rest).contains n = true ∧
          (wfNames c0 = true ∧ wfNames rest = true) := by
        simpa [wfNames, Bool.and_eq_true_iff] using hwf
      have hnotin := hwf'.1
      have hwfc := hwf'.2.1
      have hwfrest := hwf'.2.2
      have hnmem : n ∉ childNames rest := by
        intro hmem
        exact hnotin (contains_of_mem hmem)
      constructor
      · intro h
        simp only [allDirEntries, List.nil_append, List.mem_cons, List.mem_append] at h
        rcases h with h1 | h2 | h3
        · rw [Prod.ext_iff] at h1
          obtain ⟨hp1, hp2⟩ := h1
          simp only at hp1 hp2
          subst hp1; subst hp2
          refine ⟨by simp, ?_⟩
          simp [resolveDir, FSForest.findEntry]
        · rw [allDirEntries_shift c0 [n]] at h2
          obtain ⟨e, he, heq⟩ := List.mem_map.mp h2
          rw [Prod.ext_iff] at heq
          obtain ⟨hp1, hp2⟩ := heq
          simp only at hp1 hp2
          have hrec := (ihc hwfc e.1 e.2).mp he
          refine ⟨by rw [← hp1]; simp, ?_⟩
          rw [← hp1, ← hp2]
          simp only [List.cons_append, List.nil_append, resolveDir,
            FSForest.findEntry, if_pos rfl]
          exact hrec.2
        · have hrec := (ihrest hwfrest p c).mp h3
          obtain ⟨hne, hres⟩ := hrec
          refine ⟨hne, ?_⟩
          cases p with
          | nil => exact absurd rfl hne
          | cons m rest' =>
              have hmem := resolveDir_cons_mem_childNames rest m rest' c hres
              have hm : ¬ n = m := fun he => hnmem (he ▸ hmem)
              rw [resolveDir_consDir_ne n c0 rest m rest' hm]
              exact hres
      · rintro ⟨hne, hres⟩
        cases p with
        | nil => exact absurd rfl hne
        | cons m rest' =>
            by_cases hm : n = m
            · subst hm
              have hfind : (FSForest.consDir n c0 rest).findEntry n = some (.dir c0) := by
                simp [FSForest.findEntry]
              rw [show resolveDir (FSForest.consDir n c0 rest) (n :: rest') =
                  resolveDir c0 rest' by simp only [resolveDir, hfind]] at hres
              cases rest' with
              | nil =>
                  simp only [resolveDir, Option.some.injEq] at hres
                  subst hres
                  simp [allDirEntries]
              | cons a b =>
                  have hrec := (ihc hwfc (a :: b) c).mpr ⟨by simp, hres⟩
                  simp only [allDirEntries, List.nil_append, List.mem_cons, List.mem_append]
                  right; left
                  rw [allDirEntries_shift c0 [n]]
                  exact List.mem_map.mpr ⟨(a :: b, c), hrec, by simp⟩
            · rw [resolveDir_consDir_ne n c0 rest m rest' hm] at hres
              have hrec := (ihrest hwfrest (m :: rest') c).mpr ⟨by simp, hres⟩
              simp only [allDirEntries, List.nil_append, List.mem_cons, List.mem_append]
              right; right
              exact hrec
  | consYml m0 d rest ihrest =>
      intro hwf p c
      have hwf' : ¬ (childNames rest).contains m0 = true ∧ wfNames rest = true := by
        simpa [wfNames, Bool.and_eq_true_iff] using hwf
      have hnmem : m0 ∉ childNames rest := by
        intro hmem
        exact hwf'.1 (contains_of_mem hmem)
      constructor
      · intro h
        have hrec := (ihrest hwf'.2 p c).mp h
        exact ⟨hrec.1, (resolveDir_consYml_iff m0 d rest hnmem p c hrec.1).mpr hrec.2⟩
      · rintro ⟨hne, hres⟩
        exact (ihrest hwf'.2 p c).mpr
          ⟨hne, (resolveDir_consYml_iff m0 d rest hnmem p c hne).mp hres⟩
  | consFile m0 rest ihrest =>
      intro hwf p c
      have hwf' : ¬ (childNames rest).contains m0 = true ∧ wfNames rest = true := by
        simpa [wfNames, Bool.and_eq_true_iff] using hwf
      have hnmem : m0 ∉ childNames rest := by
        intro hmem
        exact hwf'.1 (contains_of_mem hmem)
      constructor
      · intro h
        have hrec := (ihrest hwf'.2 p c).mp h
        exact ⟨hrec.1, (resolveDir_consFile_iff m0 rest hnmem p c hrec.1).mpr hrec.2⟩
      · rintro ⟨hne, hres⟩
        exact (ihrest hwf'.2 p c).mpr
          ⟨hne, (resolveDir_consFile_iff m0 rest hnmem p c hne).mp hres⟩
  | consLink m0 rest ihrest =>
      intro hwf p c
      have hwf' : ¬ (childNames rest).contains m0 = true ∧ wfNames rest = true := by
        simpa [wfNames, Bool.and_eq_true_iff] using hwf
      have hnmem : m0 ∉ childNames rest := by
        intro hmem
        exact hwf'.1 (contains_of_mem hmem)
      constructor
      · intro h
        have hrec := (ihrest hwf'.2 p c).mp h
        exact ⟨hrec.1, (resolveDir_consLink_iff m0 rest hnmem p c hrec.1).mpr hrec.2⟩
      · rintro ⟨hne, hres⟩
        exact (ihrest hwf'.2 p c).mpr
          ⟨hne, (resolveDir_consLink_iff m0 rest hnmem p c hne).mp hres⟩

theorem hasEntry_false_findEntry_none (f : FSForest) (n : List Char)
    (h : f.hasEntry n = false) : f.findEntry n = none := by
  unfold FSForest.hasEntry at h
  exact Option.not_isSome_iff_eq_none.mp (by simp [h])

theorem resolveDir_append :
    ∀ (p : List (List Char)) (f : FSForest) (q : List (List Char)),
      resolveDir f (p ++ q) = (resolveDir f p).bind (fun c => resolveDir c q) := by
  intro p
  induction p with
  | nil => intro f q; simp [resolveDir]
  | cons n rest ih =>
      intro f q
      simp only [List.cons_append, resolveDir]
      cases f.findEntry n with
      | none => simp
      | some e =>
          cases e with
          | dir c => exact ih c q
          | yml d => simp
          | plain => simp
          | link => simp

theorem pathExists_of_resolve :
    ∀ (p : List (List Char)) (f c : FSForest), resolveDir f p = some c →
      ∀ q : List (List Char), q ≠ [] → pathExists f (p ++ q) = pathExists c q := by
  intro p
  induction p with
  | nil =>
      intro f c h q _
      simp only [resolveDir, Option.some.injEq] at h
      subst h
      rfl
  | cons n rest ih =>
      intro f c h q hq
      simp only [resolveDir] at h
      cases hf : f.findEntry n with
      | none => rw [hf] at h; exact absurd h (by simp)
      | some e =>
          cases e with
          | dir c0 =>
              rw [hf] at h
              have hrec := ih c0 c h q hq
              simp only [List.cons_append]
              rw [show pathExists f (n :: (rest ++ q)) = pathExists c0 (rest ++ q) by
                cases hrq : rest ++ q with
                | nil =>
                    exact absurd (List.append_eq_nil.mp hrq).2 hq
                | cons a b => simp only [pathExists, hf]]
              exact hrec
          | yml d => rw [hf] at h; exact absurd h (by simp)
          | plain => rw [hf] at h; exact absurd h (by simp)
          | link => rw [hf] at h; exact absurd h (by simp)

theorem wfNames_of_findEntry_dir :
    ∀ (f : FSForest) (n : List Char) (c : FSForest), wfNames f = true →
      f.findEntry n = some (.dir c) → wfNames c = true := by
  intro f
  induction f with
  | nil => intro n c _ h; exact absurd h (by simp [FSForest.findEntry])
  | consDir m c0 rest ihc ihrest =>
      intro n c hwf h
      have hwf' : ¬ (childNames rest).contains m = true ∧
          (wfNames c0 = true ∧ wfNames rest = true) := by
        simpa [wfNames, Bool.and_eq_true_iff] using hwf
      simp only [FSForest.findEntry] at h
      by_cases hm : m = n
      · rw [if_pos hm] at h
        have : c0 = c := by
          injection h with h'
          injection h'
        exact this ▸ hwf'.2.1
      · rw [if_neg hm] at h
        exact ihrest n c hwf'.2.2 h
  | consYml m d rest ihrest =>
      intro n c hwf h
      have hwf' : ¬ (childNames rest).contains m = true ∧ wfNames rest = true := by
        simpa [wfNames, Bool.and_eq_true_iff] using hwf
      simp only [FSForest.findEntry] at h
      by_cases hm : m = n
      · rw [if_pos hm] at h; exact absurd h (by simp)
      · rw [if_neg hm] at h
        exact ihrest n c hwf'.2 h
  | consFile m rest ihrest =>
      intro n c hwf h
      have hwf' : ¬ (childNames rest).contains m = true ∧ wfNames rest = true := by
        simpa [wfNames, Bool.and_eq_true_iff] using hwf
      simp only [FSForest.findEntry] at h
      by_cases hm : m = n
      · rw [if_pos hm] at h; exact absurd h (by simp)
      · rw [if_neg hm] at h
        exact ihrest n c hwf'.2 h
  | consLink m rest ihrest =>
      intro n c hwf h
      have hwf' : ¬ (childNames rest).contains m = true ∧ wfNames rest = true := by
        simpa [wfNames, Bool.and_eq_true_iff] using hwf
      simp only [FSForest.findEntry] at h
      by_cases hm : m = n
      · rw [if_pos hm] at h; exact absurd h (by simp)
      · rw [if_neg hm] at h
        exact ihrest n c hwf'.2 h

theorem wfNames_rolesChildren (root : FSForest) (hwf : wfNames root = true) :
    wfNames (rolesChildren root) = true := by
  unfold rolesChildren
  cases hfind : root.findEntry (strL "roles") with
  | none => rfl
  | some e =>
      cases e with
      | dir c => exact wfNames_of_findEntry_dir root _ c hwf hfind
      | yml d => rfl
      | plain => rfl
      | link => rfl

theorem resolveDir_roles_cons (root : FSForest) (p : List (List Char)) (hp : p ≠ []) :
    resolveDir root (strL "roles" :: p) = resolveDir (rolesChildren root) p := by
  simp only [resolveDir]
  unfold rolesChildren
  cases hfind : root.findEntry (strL "roles") with
  | none =>
      cases p with
      | nil => exact absurd rfl hp
      | cons a b => simp [resolveDir, FSForest.findEntry]
  | some e =>
      cases e with
      | dir c => rfl
      | yml d =>
          cases p with
          | nil => exact absurd rfl hp
          | cons a b => simp [resolveDir, FSForest.findEntry]
      | plain =>
          cases p with
          | nil => exact absurd rfl hp
          | cons a b => simp [resolveDir, FSForest.findEntry]
      | link =>
          cases p with
          | nil => exact absurd rfl hp
          | cons a b => simp [resolveDir, FSForest.findEntry]

/-- C5 — Parent-unit classification: among directories under the `roles`
tree that lack a `meta` and a `tasks` child, exactly those whose name is not
a reserved marker name and that have a `defaults` or `vars` child or contain
at least one nested unit are classified as (parent) units by the scanner of
`fix_role_meta.main` (their `meta/main.yml` is queued for creation); in
particular a reserved-named directory without those markers is never
classified. -/
theorem parent_unit_classification (root : FSForest) (hwf : wfNames root = true)
    (p : List (List Char)) (c : FSForest)
    (hmem : (p, c) ∈ allDirEntries (rolesChildren root) [])
    (hnometa : c.hasEntry (strL "meta") = false)
    (hnotasks : c.hasEntry (strL "tasks") = false) :
    (strL "roles" :: (p ++ [strL "meta", strL "main.yml"])) ∈ metaFilesQueued root ↔
      ((skipDirsL.contains (p.getLast?.getD [])) = false ∧
        (c.hasEntry (strL "defaults") || c.hasEntry (strL "vars") || anySubRole c) = true) := by
  have hwfrc : wfNames (rolesChildren root) = true := wfNames_rolesChildren root hwf
  have hkey := mem_allDirEntries_iff_resolveDir (rolesChildren root) hwfrc
  obtain ⟨hpne, hres⟩ := (hkey p c).mp hmem
  constructor
  · intro hq
    unfold metaFilesQueued at hq
    rcases List.mem_append.mp hq with hga | hrest
    · -- glob source: impossible, `c` has no `meta` child
      exfalso
      unfold globMetaMain at hga
      obtain ⟨qc, hqc, heq⟩ := List.mem_map.mp hga
      have hq1 : qc.1 = strL "roles" :: p := by
        have heq' : qc.1 ++ [strL "meta", strL "main.yml"] =
            (strL "roles" :: p) ++ [strL "meta", strL "main.yml"] := by
          rw [heq]
          rfl
        exact (List.append_inj' heq' rfl).1
      obtain ⟨hqmem, hqpred⟩ := List.mem_filter.mp hqc
      have hr := (mem_allDirEntries_iff_resolveDir root hwf qc.1 qc.2).mp hqmem
      rw [hq1] at hr
      rw [resolveDir_roles_cons root p hpne] at hr
      have hc2 : qc.2 = c := by
        have := hr.2.symm.trans hres
        injection this
      rw [Bool.and_eq_true_iff] at hqpred
      have hmm : hasMetaMainYml qc.2 = true := hqpred.2
      rw [hc2] at hmm
      unfold hasMetaMainYml at hmm
      rw [hasEntry_false_findEntry_none c _ hnometa] at hmm
      simp at hmm
    rcases List.mem_append.mp hrest with htk | hpar
    · -- tasks source: impossible, `c` has no `tasks` child
      exfalso
      obtain ⟨q', hq', heqr⟩ := List.mem_map.mp htk
      have hq'eq : q' = p ++ [strL "meta", strL "main.yml"] := by
        injection heqr with h1 h2
      unfold tasksScanRel at hq'
      obtain ⟨qc, hqcmem, hqcf⟩ := List.mem_filterMap.mp hq'
      by_cases hcond : ((qc.1.getLast? == some (strL "tasks")) &&
          (qc.2.hasEntry (strL "main.yml") || qc.2.hasEntry (strL "main.yaml"))) = true
      · rw [if_pos hcond] at hqcf
        by_cases hex : pathExists (rolesChildren root)
            (qc.1.dropLast ++ [strL "meta", strL "main.yml"]) = true
        · rw [if_pos hex] at hqcf
          exact Option.noConfusion hqcf
        · rw [if_neg hex] at hqcf
          have hdrop : qc.1.dropLast = p := by
            have : qc.1.dropLast ++ [strL "meta", strL "main.yml"] =
                p ++ [strL "meta", strL "main.yml"] := by
              injection hqcf with h'
              rw [h', hq'eq]
            exact (List.append_inj' this rfl).1
          rw [Bool.and_eq_true_iff] at hcond
          have hlast : qc.1.getLast? = some (strL "tasks") := by
            have := hcond.1
            simpa using this
          obtain ⟨hq1ne, hq1res⟩ := (hkey qc.1 qc.2).mp hqcmem
          have hq1eq : qc.1 = p ++ [strL "tasks"] := by
            have := List.dropLast_concat_getLast hq1ne
            rw [List.getLast?_eq_getLast qc.1 hq1ne] at hlast
            injection hlast with hlast'
            rw [← hdrop, ← hlast']
            exact this.symm
          rw [hq1eq, resolveDir_append] at hq1res
          rw [hres] at hq1res
          have hq1res' : resolveDir c [strL "tasks"] = some qc.2 := hq1res
          simp only [resolveDir, hasEntry_false_findEntry_none c _ hnotasks] at hq1res'
          exact Option.noConfusion hq1res'
      · rw [if_neg hcond] at hqcf
        exact Option.noConfusion hqcf
    · -- parent source: read the classification conditions off the filter
      obtain ⟨q', hq', heqr⟩ := List.mem_map.mp hpar
      have hq'eq : q' = p ++ [strL "meta", strL "main.yml"] := by
        injection heqr with h1 h2
      unfold parentScanRel at hq'
      obtain ⟨qc, hqcmem, hqcf⟩ := List.mem_filterMap.mp hq'
      by_cases hcond : (!(skipDirsL.contains (qc.1.getLast?.getD [])) &&
          (qc.2.hasEntry (strL "defaults") || qc.2.hasEntry (strL "vars") ||
            anySubRole qc.2)) = true
      · rw [if_pos hcond] at hqcf
        by_cases hex : pathExists (rolesChildren root)
            (qc.1 ++ [strL "meta", strL "main.yml"]) = true
        · rw [if_pos hex] at hqcf
          exact Option.noConfusion hqcf
        · rw [if_neg hex] at hqcf
          have hq1 : qc.1 = p := by
            have : qc.1 ++ [strL "meta", strL "main.yml"] =
                p ++ [strL "meta", strL "main.yml"] := by
              injection hqcf with h'
              rw [h', hq'eq]
            exact (List.append_inj' this rfl).1
          obtain ⟨hq1ne, hq1res⟩ := (hkey qc.1 qc.2).mp hqcmem
          rw [hq1, hres] at hq1res
          have hc2 : qc.2 = c := by
            injection hq1res with h'
            exact h'.symm
          rw [Bool.and_eq_true_iff] at hcond
          rw [hq1, hc2] at hcond
          refine ⟨?_, hcond.2⟩
          have := hcond.1
          simpa using this
      · rw [if_neg hcond] at hqcf
        exact Option.noConfusion hqcf
  · rintro ⟨hskip, hcond⟩
    unfold metaFilesQueued
    refine List.mem_append.mpr (Or.inr (List.mem_append.mpr (Or.inr ?_)))
    refine List.mem_map.mpr ⟨p ++ [strL "meta", strL "main.yml"], ?_, rfl⟩
    unfold parentScanRel
    refine List.mem_filterMap.mpr ⟨(p, c), hmem, ?_⟩
    have hcondT : (!(skipDirsL.contains (p.getLast?.getD [])) &&
        (c.hasEntry (strL "defaults") || c.hasEntry (strL "vars") || anySubRole c)) = true := by
      rw [Bool.and_eq_true_iff]
      exact ⟨by rw [hskip]; rfl, hcond⟩
    rw [if_pos hcondT]
    have hex : pathExists (rolesChildren root) (p ++ [strL "meta", strL "main.yml"]) = false := by
      rw [pathExists_of_resolve p (rolesChildren root) c hres _ (by simp)]
      simp only [pathExists]
      rw [hasEntry_false_findEntry_none c _ hnometa]
    rw [if_neg (by simp [hex])]

/-- A root with one parent unit: `roles/grp` has a `defaults` child and
neither `meta` nor `tasks`. -/
def c5World : FSForest :=
  .consDir (strL "roles")
    (.consDir (strL "grp") (.consDir (strL "defaults") .nil .nil) .nil)
    .nil

/-- Witness for C5: on `c5World`, `roles/grp/meta/main.yml` is queued by the
scanner, and `grp` is not a reserved name. -/
theorem parent_unit_classification_witness :
    (strL "roles" :: ([strL "grp"] ++ [strL "meta", strL "main.yml"])) ∈
      metaFilesQueued c5World ∧
    (skipDirsL.contains (([strL "grp"] : List (List Char)).getLast?.getD [])) = false :=
  ⟨(parent_unit_classification c5World (by decide) [strL "grp"]
      (.consDir (strL "defaults") .nil .nil) (by decide) (by decide) (by decide)).mpr
      ⟨by decide, by decide⟩,
   by decide⟩

/-!
## Document text model

YAML files are stored in parsed form (`YVal`); their on-disk text is the
canonical PyYAML block-style serialization prefixed with `---\n`, exactly
what `update_yaml_file` writes back (source lines 238-241).  The textual
operations of the engine (substring membership, the foreign-document check,
the reference regex scan) are evaluated over that canonical text.
-/

/-- `n` spaces. -/
def indentSp (n : Nat) : List Char := List.replicate n ' '

/-- The inline text of a scalar, when the value is one. -/
def scalarText : YVal → Option (List Char)
  | .str s => some s
  | .bool b => some (if b then strL "true" else strL "false")
  | .null => some (strL "null")
  | _ => none

/-- Block-style rendering (PyYAML `safe_dump(default_flow_style=False,
sort_keys=False)`): sequence blocks and mapping blocks at an indent.  A
mapping or sequence standing after `"- "` reuses its block rendering with
the first line's indent stripped. -/
def dumpBlock : YVal → Nat → List Char
  | .seqCons a rest, ind =>
      (indentSp ind ++ strL "- " ++
        (match scalarText a with
         | some s => s ++ ['\n']
         | none =>
             match a with
             | .mapNil => strL "\x7b\x7d" ++ ['\n']
             | .seqNil => strL "[]" ++ ['\n']
             | other => (dumpBlock other (ind + 2)).drop (ind + 2))) ++
      dumpBlock rest ind
  | .mapCons k v rest, ind =>
      (indentSp ind ++ k ++ [':'] ++
        (match scalarText v with
         | some s => [' '] ++ s ++ ['\n']
         | none =>
             match v with
             | .seqNil => strL " []" ++ ['\n']
             | .mapNil => strL " \x7b\x7d" ++ ['\n']
             | .seqCons a r => ['\n'] ++ dumpBlock (.seqCons a r) ind
             | .mapCons k2 v2 r2 => ['\n'] ++ dumpBlock (.mapCons k2 v2 r2) (ind + 2)
             | _ => ['\n'])) ++
      dumpBlock rest ind
  | _, _ => []

/-- A whole document's rendering. -/
def dumpDoc : YVal → List Char
  | .seqCons a r => dumpBlock (.seqCons a r) 0
  | .seqNil => strL "[]" ++ ['\n']
  | .mapCons k v r => dumpBlock (.mapCons k v r) 0
  | .mapNil => strL "\x7b\x7d" ++ ['\n']
  | v => (scalarText v).getD [] ++ ['\n']

/-- The on-disk text of a stored document: the `---` header plus the dump
(this is exactly what source lines 239-241 write). -/
def fileText (d : YVal) : List Char := strL "---" ++ ['\n'] ++ dumpDoc d

/-- Python `needle in haystack` on strings. -/
def containsSub : List Char → List Char → Bool
  | [], needle => needle.isEmpty
  | c :: rest, needle => needle.isPrefixOf (c :: rest) || containsSub rest needle

/-- Python `\s` (ASCII whitespace). -/
def isPySpace (c : Char) : Bool :=
  c.toNat == 32 || c.toNat == 9 || c.toNat == 10 ||
  c.toNat == 13 || c.toNat == 11 || c.toNat == 12

/-- The capture class `[a-z0-9_\-./]` of the reference-scan regex
(source lines 342 and 349). -/
def isRefChar (c : Char) : Bool :=
  (97 ≤ c.toNat && c.toNat ≤ 122) || (48 ≤ c.toNat && c.toNat ≤ 57) ||
  c.toNat == 95 || c.toNat == 45 || c.toNat == 46 || c.toNat == 47

/-- Fuel-indexed `re.findall(lit + r'\s+([a-z0-9_\-./]+)', s)`: scan left to
right; at a literal match take maximal whitespace then a maximal nonempty
capture, and resume after the capture. -/
def findAllRefFuel (lit : List Char) : Nat → List Char → List (List Char)
  | 0, _ => []
  | _ + 1, [] => []
  | fuel + 1, c :: rest =>
      if lit.isPrefixOf (c :: rest) then
        let after := (c :: rest).drop lit.length
        let ws := after.takeWhile isPySpace
        let cap := (after.drop ws.length).takeWhile isRefChar
        if !ws.isEmpty && !cap.isEmpty then
          cap :: findAllRefFuel lit fuel ((after.drop ws.length).drop cap.length)
        else findAllRefFuel lit fuel rest
      else findAllRefFuel lit fuel rest

def findAllRef (lit s : List Char) : List (List Char) := findAllRefFuel lit s.length s

/-- The foreign-document heuristic of `update_yaml_file` (source line 145):
one of the manifest markers occurs in the first 500 characters. -/
def foreignCheck (content : List Char) : Bool :=
  containsSub (content.take 500) (strL "apiVersion:") ||
  containsSub (content.take 500) (strL "kind: ") ||
  containsSub (content.take 500) (strL "metadata:")

/-!
## Structured rewriting inside `update_yaml_file` (source lines 186-236)
-/

/-- First value bound to a key in a YAML mapping. -/
def ymGet : YVal → List Char → Option YVal
  | .mapCons k v rest, key => if k = key then some v else ymGet rest key
  | _, _ => none

/-- Replace the value of an existing key (dict item assignment). -/
def ymSet : YVal → List Char → YVal → YVal
  | .mapCons k v rest, key, nv =>
      if k = key then .mapCons k nv rest else .mapCons k v (ymSet rest key nv)
  | other, _, _ => other

/-- Set an existing key or append a new one at the end (Python dict
assignment). -/
def ymSetOrAdd : YVal → List Char → YVal → YVal
  | .mapCons k v rest, key, nv =>
      if k = key then .mapCons k nv rest else .mapCons k v (ymSetOrAdd rest key nv)
  | .mapNil, key, nv => .mapCons key nv .mapNil
  | other, _, _ => other

/-- `isinstance(x, (dict, list))`. -/
def isDictOrList : YVal → Bool
  | .mapCons _ _ _ => true
  | .mapNil => true
  | .seqCons _ _ => true
  | .seqNil => true
  | _ => false

/-- The dependencies pass (source lines 188-202): in a mapping with a
`dependencies` list, rewrite each entry that is a mapping with a `role` key
or a bare string.  (A non-string `role` value would raise in the source and
be swallowed by the outer handler; such documents are outside the modelled
family.) -/
def updateDepItem (rmap : List (List Char × List Char)) (old new : List Char) :
    YVal → YVal × Bool
  | .mapCons k v rest =>
      match ymGet (.mapCons k v rest) (strL "role") with
      | some (.str s) =>
          let s' := update_role_reference rmap old new s
          if s' = s then (.mapCons k v rest, false)
          else (ymSet (.mapCons k v rest) (strL "role") (.str s'), true)
      | _ => (.mapCons k v rest, false)
  | .str s =>
      let s' := update_role_reference rmap old new s
      if s' = s then (.str s, false) else (.str s', true)
  | other => (other, false)

def updateDepsList (rmap : List (List Char × List Char)) (old new : List Char) :
    YVal → YVal × Bool
  | .seqCons a rest =>
      let ha := updateDepItem rmap old new a
      let hr := updateDepsList rmap old new rest
      (.seqCons ha.1 hr.1, ha.2 || hr.2)
  | other => (other, false)

def updateDeps (rmap : List (List Char × List Char)) (old new : List Char)
    (data : YVal) : YVal × Bool :=
  match ymGet data (strL "dependencies") with
  | some deps =>
      match deps with
      | .seqCons a rest =>
          let r := updateDepsList rmap old new (.seqCons a rest)
          (ymSet data (strL "dependencies") r.1, r.2)
      | _ => (data, false)
  | none => (data, false)

/-- `update_structure` (source lines 205-233): in mappings, rewrite string
values under `role`/`name` keys and recurse into nested mappings/lists; in
lists, recurse into mapping items and rewrite string items. -/
def update_structure (rmap : List (List Char × List Char)) (old new : List Char) :
    YVal → YVal × Bool
  | .mapCons k v rest =>
      let hv :=
        if k = strL "role" ∨ k = strL "name" then
          match v with
          | .str s =>
              let s' := update_role_reference rmap old new s
              (YVal.str s', !(s' = s : Bool))
          | _ =>
              if isDictOrList v then update_structure rmap old new v else (v, false)
        else
          if isDictOrList v then update_structure rmap old new v else (v, false)
      let hr := update_structure rmap old new rest
      (.mapCons k hv.1 hr.1, hv.2 || hr.2)
  | .seqCons a rest =>
      let ha :=
        match a with
        | .mapCons k2 v2 r2 => update_structure rmap old new (.mapCons k2 v2 r2)
        | .mapNil => (YVal.mapNil, false)
        | .str s =>
            let s' := update_role_reference rmap old new s
            (YVal.str s', !(s' = s : Bool))
        | other => (other, false)
      let hr := update_structure rmap old new rest
      (.seqCons ha.1 hr.1, ha.2 || hr.2)
  | v => (v, false)

/-- The pure content transformation of `update_yaml_file` on one parsed
document: the substring guard (line 141), the foreign-document guard
(line 145), the dependencies pass and the recursive pass.  Parsing is the
identity on stored documents (their text is the canonical serialization). -/
def update_yaml_file_doc (rmap : List (List Char × List Char)) (old new : List Char)
    (d : YVal) : Bool × YVal :=
  let content := fileText d
  if !(containsSub content old) then (false, d)
  else if foreignCheck content then (false, d)
  else
    let r1 := updateDeps rmap old new d
    let r2 := update_structure rmap old new r1.1
    (r1.2 || r2.2, r2.1)

/-!
## The engine (`fix_role_name.main`, source lines 286-457)
-/

/-- All stored YAML documents with their paths (DFS). -/
def allYmlFiles : FSForest → List (List Char) → List (List (List Char) × YVal)
  | .nil, _ => []
  | .consDir n c rest, p => allYmlFiles c (p ++ [n]) ++ allYmlFiles rest p
  | .consYml n d rest, p => (p ++ [n], d) :: allYmlFiles rest p
  | .consFile _ rest, p => allYmlFiles rest p
  | .consLink _ rest, p => allYmlFiles rest p

/-- The last path segment (a file's name). -/
def lastSeg (p : List (List Char)) : List Char := p.getLast?.getD []

/-- `list(Path(root).rglob("*.yml")) + list(Path(root).rglob("*.yaml"))`
(source lines 330 and 418). -/
def playbookFiles (w : FSForest) : List (List (List Char) × YVal) :=
  (allYmlFiles w []).filter (fun e => (strL ".yml").isSuffixOf (lastSeg e.1)) ++
  (allYmlFiles w []).filter (fun e => (strL ".yaml").isSuffixOf (lastSeg e.1))

/-- `Path(root).rglob("meta/main.yml")` (source line 408). -/
def metaMainFiles (w : FSForest) : List (List (List Char) × YVal) :=
  (allYmlFiles w []).filter
    (fun e => ([strL "meta", strL "main.yml"] : List (List Char)).isSuffixOf e.1)

/-- Python dict assignment on the ordered association list. -/
def setName : List (List Char × List Char) → List Char → List Char →
    List (List Char × List Char)
  | [], k, v => [(k, v)]
  | (k0, v0) :: rest, k, v =>
      if k0 = k then (k0, v) :: rest else (k0, v0) :: setName rest k v

/-- The names of the immediate subdirectories (`iterdir` + `is_dir`,
source lines 319-321). -/
def topDirNames : FSForest → List (List Char)
  | .nil => []
  | .consDir n _ rest => n :: topDirNames rest
  | .consYml _ _ rest => topDirNames rest
  | .consFile _ rest => topDirNames rest
  | .consLink _ rest => topDirNames rest

/-- Rename-map insertion for one discovered role (source lines 309-313). -/
def mapStepRole (m : List (List Char × List Char)) (pr : List (List Char) × List Char) :
    List (List Char × List Char) :=
  if !(is_valid_role_name pr.2) then setName m pr.2 (fix_role_name pr.2) else m

/-- Rename-map insertion for one direct child of `roles` (source lines
319-326). -/
def mapStepDir (m : List (List Char × List Char)) (n : List Char) :
    List (List Char × List Char) :=
  if !(is_valid_role_name n) && (lookupName m n).isNone then
    m ++ [(n, fix_role_name n)]
  else m

/-- Rename-map insertion for one path segment of a scanned reference
(source lines 352-360). -/
def mapStepPart (m : List (List Char × List Char)) (part : List Char) :
    List (List Char × List Char) :=
  if part.contains '-' && !(is_valid_role_name part) && (lookupName m part).isNone then
    m ++ [(part, fix_role_name part)]
  else m

def mapStepRef (m : List (List Char × List Char)) (r : List Char) :
    List (List Char × List Char) :=
  (splitOnSlash r).foldl mapStepPart m

/-- The textual scan of one document (source lines 331-360). -/
def mapStepFile (m : List (List Char × List Char)) (fd : List (List Char) × YVal) :
    List (List Char × List Char) :=
  let content := fileText fd.2
  let refs := findAllRef (strL "role:") content ++
    (if containsSub content (strL "import_role") ||
        containsSub content (strL "include_role") then
      findAllRef (strL "name:") content
    else [])
  refs.foldl mapStepRef m

/-- The rename map built by `main` (source lines 307-362) from the three
sources: invalid discovered role names, invalid direct children of
`<root>/roles`, and hyphenated path segments of reference-shaped tokens
found by the textual scan of every YAML document. -/
def buildRenameMap (w : FSForest) (roles : List (List (List Char) × List Char)) :
    List (List Char × List Char) :=
  (playbookFiles w).foldl mapStepFile
    ((topDirNames (rolesChildren w)).foldl mapStepDir (roles.foldl mapStepRole []))

/-- Run-wide effect counters: `renameOk` counts `rename_role` calls that
returned `True` (reported in both modes), the other three count actual
mutations. -/
structure Effects where
  renameOk : Nat
  fsMuts : Nat
  docWrites : Nat
  cleanupRemoved : Nat
deriving DecidableEq, Repr

def zeroEff : Effects := ⟨0, 0, 0, 0⟩

/-- Modify the children of the directory denoted by a path. -/
def updateDirEntry : FSForest → List Char → (FSForest → FSForest) → FSForest
  | .nil, _, _ => .nil
  | .consDir m c rest, n, g =>
      if m = n then .consDir m (g c) rest else .consDir m c (updateDirEntry rest n g)
  | .consYml m d rest, n, g =>
      if m = n then .consYml m d rest else .consYml m d (updateDirEntry rest n g)
  | .consFile m rest, n, g =>
      if m = n then .consFile m rest else .consFile m (updateDirEntry rest n g)
  | .consLink m rest, n, g =>
      if m = n then .consLink m rest else .consLink m (updateDirEntry rest n g)

def replaceDirChildren : FSForest → List (List Char) → FSForest → FSForest
  | _, [], newC => newC
  | f, n :: rest, newC => updateDirEntry f n (fun c => replaceDirChildren c rest newC)

/-- Replace the content of the first document with the given name. -/
def setYmlEntry : FSForest → List Char → YVal → FSForest
  | .nil, _, _ => .nil
  | .consYml m d0 rest, n, d =>
      if m = n then .consYml m d rest else .consYml m d0 (setYmlEntry rest n d)
  | .consDir m c rest, n, d => .consDir m c (setYmlEntry rest n d)
  | .consFile m rest, n, d => .consFile m (setYmlEntry rest n d)
  | .consLink m rest, n, d => .consLink m (setYmlEntry rest n d)

/-- Write a document at a path (`open(file_path, 'w')` on an existing
file). -/
def setYmlAt : FSForest → List (List Char) → YVal → FSForest
  | f, [], _ => f
  | f, n :: rest, d =>
      match rest with
      | [] => setYmlEntry f n d
      | _ => updateDirEntry f n (fun c => setYmlAt c rest d)

/-- Read the document at a path. -/
def getYmlAt (f : FSForest) (p : List (List Char)) : Option YVal :=
  match resolveDir f p.dropLast with
  | some c =>
      match c.findEntry (lastSeg p) with
      | some (.yml d) => some d
      | _ => none
  | none => none

/-- The executor's running state. -/
structure EngineState where
  world : FSForest
  renamedPaths : List (List (List Char) × List (List Char))
  eff : Effects

/-- Source lines 385-389: rewrite the first previously-renamed proper path
prefix, then stop (`break`). -/
def compensate : List (List (List Char) × List (List Char)) → List (List Char) →
    List (List Char)
  | [], p => p
  | (op, np) :: rest, p =>
      if op.isPrefixOf p && decide (op.length < p.length) then np ++ p.drop op.length
      else compensate rest p

/-- One step of the rename executor, for one discovered role (source lines
377-404): for mapped names, compensate the path, skip when it no longer
exists, rename within the parent directory, and record the move. -/
def execStep (dry : Bool) (rmap : List (List Char × List Char))
    (st : EngineState) (pr : List (List Char) × List Char) : EngineState :=
  match lookupName rmap pr.2 with
  | none => st
  | some newName =>
      let rp := strL "roles" :: pr.1
      let current := compensate st.renamedPaths rp
      if !(pathExists st.world current) then st
      else
        match resolveDir st.world current.dropLast with
        | none => st
        | some parentC =>
            let r := rename_role parentC (lastSeg current) newName dry
            if r.ok then
              { world := replaceDirChildren st.world current.dropLast r.fs,
                renamedPaths := st.renamedPaths ++ [(rp, current.dropLast ++ [newName])],
                eff := { st.eff with renameOk := st.eff.renameOk + 1,
                                     fsMuts := st.eff.fsMuts + r.muts } }
            else st

/-- The rename executor (source lines 373-404): process the deepest-first
role sequence. -/
def execRenames (dry : Bool) (rmap : List (List Char × List Char))
    (roles : List (List (List Char) × List Char)) (st0 : EngineState) : EngineState :=
  roles.foldl (execStep dry rmap) st0

/-- One update sweep (source lines 410-414 and 420-434): for each file and
each rename-map entry, read the current document, apply
`update_yaml_file`, and write back when modified and not in dry-run. -/
def runUpdates (dry : Bool) (rmap : List (List Char × List Char))
    (files : List (List (List Char))) (w0 : FSForest) (e0 : Effects) :
    FSForest × Effects :=
  files.foldl (fun st fp =>
    rmap.foldl (fun st kv =>
      match getYmlAt st.1 fp with
      | none => st
      | some d =>
          let r := update_yaml_file_doc rmap kv.1 kv.2 d
          if r.1 && !dry then
            (setYmlAt st.1 fp r.2, { st.2 with docWrites := st.2.docWrites + 1 })
          else st) st) (w0, e0)

/-- The absolute path string of a file, with the model's fixed root
`/r`. -/
def pathStringL (p : List (List Char)) : List Char :=
  strL "/r/" ++ List.intercalate (strL "/") p

/-- The playbook-phase skip conditions (source lines 423-430). -/
def skipPlaybook (p : List (List Char)) : Bool :=
  containsSub (pathStringL p) (strL "meta/main.yml") ||
  containsSub (pathStringL p) (strL "/tests/") ||
  containsSub (pathStringL p) (strL "/files/") ||
  containsSub (pathStringL p) (strL "/templates/") ||
  containsSub (pathStringL p) (strL "/library/")

/-- The final cleanup (source lines 437-454): among the snapshot of the
immediate subdirectories of `roles`, delete each hyphenated one whose
underscore twin exists at the time it is examined. -/
def cleanupPass (dry : Bool) (w0 : FSForest) (e0 : Effects) : FSForest × Effects :=
  (topDirNames (rolesChildren w0)).foldl (fun st n =>
    if n.contains '-' then
      let valid := n.map (fun c => if c.toNat == 45 then '_' else c)
      if (rolesChildren st.1).hasEntry valid then
        if dry then st
        else (updateDirEntry st.1 (strL "roles") (fun c => c.eraseEntry n),
              { st.2 with cleanupRemoved := st.2.cleanupRemoved + 1 })
      else st
    else st) (w0, e0)

/-- The run's outcome: the final tree and the effect counters. -/
structure RunResult where
  world : FSForest
  eff : Effects
deriving DecidableEq, Repr

/-- `main` (source lines 286-457) for a root tree and the dry-run flag:
discovery, rename-map construction, the two early exits, the rename
executor, the dependency and playbook update sweeps, and the final
cleanup. -/
def engineMain (w : FSForest) (dry : Bool) : RunResult :=
  let roles := find_roles w
  if roles.isEmpty then ⟨w, zeroEff⟩
  else
    let rmap := buildRenameMap w roles
    if rmap.isEmpty then ⟨w, zeroEff⟩
    else
      let st1 := execRenames dry rmap roles ⟨w, [], zeroEff⟩
      let metaFs := (metaMainFiles st1.world).map (fun e => e.1)
      let st2 := runUpdates dry rmap metaFs st1.world st1.eff
      let pbFs := ((playbookFiles st2.1).map (fun e => e.1)).filter
        (fun p => !(skipPlaybook p))
      let st3 := runUpdates dry rmap pbFs st2.1 st2.2
      let st4 := cleanupPass dry st3.1 st3.2
      ⟨st4.1, st4.2⟩

/-!
## Dry-run frame property (claim C8)
-/

theorem foldl_invariant {α σ : Type _} (P : σ → Prop) (f : σ → α → σ)
    (hstep : ∀ s a, P s → P (f s a)) :
    ∀ (l : List α) (s : σ), P s → P (l.foldl f s)
  | [], _, h => h
  | a :: t, s, h => foldl_invariant P f hstep t (f s a) (hstep s a h)

theorem foldl_id {α σ : Type _} (f : σ → α → σ) (hf : ∀ s a, f s a = s) :
    ∀ (l : List α) (s : σ), l.foldl f s = s
  | [], _ => rfl
  | a :: t, s => by rw [List.foldl_cons, hf s a]; exact foldl_id f hf t s

theorem updateDirEntry_id :
    ∀ (f : FSForest) (n : List Char) (g : FSForest → FSForest) (c0 : FSForest),
      f.findEntry n = some (.dir c0) → g c0 = c0 → updateDirEntry f n g = f := by
  intro f
  induction f with
  | nil => intro n g c0 h _; exact absurd h (by simp [FSForest.findEntry])
  | consDir m c rest ihc ihrest =>
      intro n g c0 h hg
      simp only [FSForest.findEntry] at h
      simp only [updateDirEntry]
      by_cases hm : m = n
      · rw [if_pos hm] at h
        rw [if_pos hm]
        have hc : c = c0 := by
          injection h with h'
          injection h'
        rw [hc, hg]
      · rw [if_neg hm] at h
        rw [if_neg hm, ihrest n g c0 h hg]
  | consYml m d rest ihrest =>
      intro n g c0 h hg
      simp only [FSForest.findEntry] at h
      simp only [updateDirEntry]
      by_cases hm : m = n
      · rw [if_pos hm] at h; exact absurd h (by simp)
      · rw [if_neg hm] at h
        rw [if_neg hm, ihrest n g c0 h hg]
  | consFile m rest ihrest =>
      intro n g c0 h hg
      simp only [FSForest.findEntry] at h
      simp only [updateDirEntry]
      by_cases hm : m = n
      · rw [if_pos hm] at h; exact absurd h (by simp)
      · rw [if_neg hm] at h
        rw [if_neg hm, ihrest n g c0 h hg]
  | consLink m rest ihrest =>
      intro n g c0 h hg
      simp only [FSForest.findEntry] at h
      simp only [updateDirEntry]
      by_cases hm : m = n
      · rw [if_pos hm] at h; exact absurd h (by simp)
      · rw [if_neg hm] at h
        rw [if_neg hm, ihrest n g c0 h hg]

theorem replaceDirChildren_self :
    ∀ (p : List (List Char)) (f c : FSForest), resolveDir f p = some c →
      replaceDirChildren f p c = f := by
  intro p
  induction p with
  | nil =>
      intro f c h
      simp only [resolveDir, Option.some.injEq] at h
      simp only [replaceDirChildren]
      exact h.symm
  | cons n rest ih =>
      intro f c h
      simp only [resolveDir] at h
      cases hf : f.findEntry n with
      | none => rw [hf] at h; exact absurd h (by simp)
      | some e =>
          cases e with
          | dir c0 =>
              rw [hf] at h
              simp only [replaceDirChildren]
              exact updateDirEntry_id f n _ c0 hf (ih c0 c h)
          | yml d => rw [hf] at h; exact absurd h (by simp)
          | plain => rw [hf] at h; exact absurd h (by simp)
          | link => rw [hf] at h; exact absurd h (by simp)

theorem rename_role_dry (parent : FSForest) (o n : List Char) :
    (rename_role parent o n true).fs = parent ∧ (rename_role parent o n true).muts = 0 := by
  unfold rename_role
  cases parent.findEntry n with
  | none => simp
  | some e => cases e <;> simp

theorem execRenames_dry (rmap : List (List Char × List Char))
    (roles : List (List (List Char) × List Char)) (st0 : EngineState) :
    (execRenames true rmap roles st0).world = st0.world ∧
    (execRenames true rmap roles st0).eff.fsMuts = st0.eff.fsMuts ∧
    (execRenames true rmap roles st0).eff.docWrites = st0.eff.docWrites ∧
    (execRenames true rmap roles st0).eff.cleanupRemoved = st0.eff.cleanupRemoved := by
  unfold execRenames
  refine foldl_invariant
    (fun st : EngineState => st.world = st0.world ∧ st.eff.fsMuts = st0.eff.fsMuts ∧
      st.eff.docWrites = st0.eff.docWrites ∧
      st.eff.cleanupRemoved = st0.eff.cleanupRemoved)
    (execStep true rmap) ?_ roles st0 ⟨rfl, rfl, rfl, rfl⟩
  intro st pr hP
  unfold execStep
  cases hlk : lookupName rmap pr.2 with
  | none => simpa [hlk] using hP
  | some newName =>
      simp only [hlk]
      by_cases hex : pathExists st.world (compensate st.renamedPaths (strL "roles" :: pr.1)) = true
      · simp only [hex, Bool.not_true, Bool.false_eq_true, if_false]
        cases hres : resolveDir st.world
            (compensate st.renamedPaths (strL "roles" :: pr.1)).dropLast with
        | none => simpa using hP
        | some parentC =>
            have hdry := rename_role_dry parentC
              (lastSeg (compensate st.renamedPaths (strL "roles" :: pr.1))) newName
            by_cases hok : (rename_role parentC
                (lastSeg (compensate st.renamedPaths (strL "roles" :: pr.1))) newName
                true).ok = true
            · simp only [hok, if_true]
              refine ⟨?_, ?_, ?_, ?_⟩
              · simp only [hdry.1]
                rw [replaceDirChildren_self _ st.world parentC hres]
                exact hP.1
              · simp only [hdry.2]
                exact hP.2.1
              · exact hP.2.2.1
              · exact hP.2.2.2
            · simp only [Bool.not_eq_true] at hok
              simp only [hok, Bool.false_eq_true, if_false]
              exact hP
      · simp only [Bool.not_eq_true] at hex
        simp only [hex]
        simpa using hP

theorem runUpdates_dry (rmap : List (List Char × List Char))
    (files : List (List (List Char))) (w0 : FSForest) (e0 : Effects) :
    runUpdates true rmap files w0 e0 = (w0, e0) := by
  unfold runUpdates
  apply foldl_id
  intro s fp
  apply foldl_id
  intro s' kv
  cases getYmlAt s'.1 fp with
  | none => rfl
  | some d => simp

theorem cleanupPass_dry (w0 : FSForest) (e0 : Effects) :
    cleanupPass true w0 e0 = (w0, e0) := by
  unfold cleanupPass
  apply foldl_id
  intro s n
  by_cases hc : n.contains '-' = true
  · simp only [hc, if_true]
    by_cases hh : (rolesChildren s.1).hasEntry
        (n.map (fun c => if c.toNat == 45 then '_' else c)) = true
    · simp [hh]
    · simp only [Bool.not_eq_true] at hh
      simp [hh]
  · simp only [Bool.not_eq_true] at hc
    simp [hc]

/-- C8 — Dry-run performs zero mutations: with the dry-run flag set, the run
leaves the tree untouched and performs no filesystem mutation, no document
write, and no cleanup deletion, on every input tree (the computed effects,
e.g. the would-be renames counted by `renameOk`, are still produced for the
report). -/
theorem dry_run_no_mutations (w : FSForest) :
    (engineMain w true).world = w ∧
    (engineMain w true).eff.fsMuts = 0 ∧
    (engineMain w true).eff.docWrites = 0 ∧
    (engineMain w true).eff.cleanupRemoved = 0 := by
  unfold engineMain
  by_cases h1 : (find_roles w).isEmpty = true
  · simp [h1, zeroEff]
  · simp only [Bool.not_eq_true] at h1
    simp only [h1, Bool.false_eq_true, if_false]
    by_cases h2 : (buildRenameMap w (find_roles w)).isEmpty = true
    · simp [h2, zeroEff]
    · simp only [Bool.not_eq_true] at h2
      simp only [h2, Bool.false_eq_true, if_false]
      have hex := execRenames_dry (buildRenameMap w (find_roles w)) (find_roles w)
        ⟨w, [], zeroEff⟩
      set st1 := execRenames true (buildRenameMap w (find_roles w)) (find_roles w)
        ⟨w, [], zeroEff⟩ with hst1
      rw [runUpdates_dry]
      rw [runUpdates_dry]
      rw [cleanupPass_dry]
      exact ⟨hex.1, hex.2.1, hex.2.2.1, hex.2.2.2⟩

/-!
## Rename-map invariant (claim C2)
-/

/-- The invariant of the rename map: keys fail validity, values are the
normalizer's output and pass validity. -/
def mapInv (m : List (List Char × List Char)) : Prop :=
  ∀ kv ∈ m, is_valid_role_name kv.1 = false ∧ kv.2 = fix_role_name kv.1 ∧
    is_valid_role_name kv.2 = true

theorem mapInv_setName {m : List (List Char × List Char)} {k : List Char}
    (hm : mapInv m) (hk : is_valid_role_name k = false) :
    mapInv (setName m k (fix_role_name k)) := by
  induction m with
  | nil =>
      intro kv hkv
      simp only [setName, List.mem_singleton] at hkv
      subst hkv
      exact ⟨hk, rfl, is_valid_fix_role_name k⟩
  | cons kv0 rest ih =>
      intro kv hkv
      simp only [setName] at hkv
      split at hkv
      · rename_i hk0
        rcases List.mem_cons.mp hkv with h1 | h2
        · subst h1
          refine ⟨?_, ?_, ?_⟩
          · rw [hk0]; exact hk
          · rw [hk0]
          · rw [hk0]; exact is_valid_fix_role_name k
        · exact hm _ (List.mem_cons_of_mem _ h2)
      · rcases List.mem_cons.mp hkv with h1 | h2
        · subst h1
          exact hm _ (List.mem_cons_self _ _)
        · exact ih (fun x hx => hm x (List.mem_cons_of_mem _ hx)) _ h2

theorem mapInv_append {m : List (List Char × List Char)} {k : List Char}
    (hm : mapInv m) (hk : is_valid_role_name k = false) :
    mapInv (m ++ [(k, fix_role_name k)]) := by
  intro kv hkv
  rcases List.mem_append.mp hkv with h1 | h2
  · exact hm kv h1
  · simp only [List.mem_singleton] at h2
    subst h2
    exact ⟨hk, rfl, is_valid_fix_role_name k⟩

theorem mapInv_mapStepRole (m : List (List Char × List Char))
    (pr : List (List Char) × List Char) (hm : mapInv m) : mapInv (mapStepRole m pr) := by
  unfold mapStepRole
  split
  · rename_i hv
    exact mapInv_setName hm (by simpa using hv)
  · exact hm

theorem mapInv_mapStepDir (m : List (List Char × List Char)) (n : List Char)
    (hm : mapInv m) : mapInv (mapStepDir m n) := by
  unfold mapStepDir
  split
  · rename_i hv
    rw [Bool.and_eq_true_iff] at hv
    exact mapInv_append hm (by simpa using hv.1)
  · exact hm

theorem mapInv_mapStepPart (m : List (List Char × List Char)) (part : List Char)
    (hm : mapInv m) : mapInv (mapStepPart m part) := by
  unfold mapStepPart
  split
  · rename_i hv
    rw [Bool.and_eq_true_iff, Bool.and_eq_true_iff] at hv
    exact mapInv_append hm (by simpa using hv.1.2)
  · exact hm

theorem mapInv_mapStepRef (m : List (List Char × List Char)) (r : List Char)
    (hm : mapInv m) : mapInv (mapStepRef m r) :=
  foldl_invariant mapInv mapStepPart (fun s a h => mapInv_mapStepPart s a h)
    (splitOnSlash r) m hm

theorem mapInv_mapStepFile (m : List (List Char × List Char))
    (fd : List (List Char) × YVal) (hm : mapInv m) : mapInv (mapStepFile m fd) :=
  foldl_invariant mapInv mapStepRef (fun s a h => mapInv_mapStepRef s a h) _ m hm

theorem buildRenameMap_inv (w : FSForest) (roles : List (List (List Char) × List Char)) :
    mapInv (buildRenameMap w roles) := by
  unfold buildRenameMap
  refine foldl_invariant mapInv mapStepFile
    (fun s a h => mapInv_mapStepFile s a h) _ _ ?_
  refine foldl_invariant mapInv mapStepDir
    (fun s a h => mapInv_mapStepDir s a h) _ _ ?_
  refine foldl_invariant mapInv mapStepRole
    (fun s a h => mapInv_mapStepRole s a h) _ _ ?_
  intro kv hkv
  simp at hkv

/-- C2 — Rename-map invariant: every key of the rename map built by `main`
fails `is_valid_role_name`, every value is `fix_role_name` of its key and
passes `is_valid_role_name`; and for every string `s`,
`is_valid_role_name (fix_role_name s)` holds. -/
theorem rename_map_invariant (w : FSForest) (kv : List Char × List Char)
    (hkv : kv ∈ buildRenameMap w (find_roles w)) :
    (is_valid_role_name kv.1 = false ∧ kv.2 = fix_role_name kv.1 ∧
      is_valid_role_name kv.2 = true) ∧
    (∀ s : List Char, is_valid_role_name (fix_role_name s) = true) :=
  ⟨buildRenameMap_inv w (find_roles w) kv hkv, is_valid_fix_role_name⟩

/-- The tree used by the C1 analysis: an invalid role `roles/c-d` and a
playbook with a dot-qualified reference whose prefix contains a hyphen. -/
def c1World : FSForest :=
  .consDir (strL "roles")
    (.consDir (strL "c-d") (.consDir (strL "tasks") .nil .nil) .nil)
    (.consYml (strL "site.yml")
      (.seqCons (.mapCons (strL "role") (.str (strL "a-b.c-d")) .mapNil) .seqNil)
      .nil)

/-- Witness for C2 on a concrete tree: the map of `c1World` holds the pair
`(c-d, c_d)`, whose key fails validity and whose value passes it. -/
theorem rename_map_invariant_witness :
    (is_valid_role_name (strL "c-d") = false ∧
      strL "c_d" = fix_role_name (strL "c-d") ∧
      is_valid_role_name (strL "c_d") = true) ∧
    (∀ s : List Char, is_valid_role_name (fix_role_name s) = true) :=
  rename_map_invariant c1World (strL "c-d", strL "c_d") (by decide)

/-- C1 — the engine is not idempotent: on `c1World` the first live run
renames `roles/c-d` to `roles/c_d` and rewrites the playbook's dot-qualified
reference `a-b.c-d` to `a-b.c_d` (only the suffix after the last dot is
normalized, the hyphenated prefix survives); the second live run re-flags
`a-b.c_d` in its textual scan and performs one document rewrite, where the
claim requires zero. -/
theorem engine_second_run_rewrites :
    (engineMain c1World false).eff.fsMuts = 1 ∧
    (engineMain c1World false).eff.docWrites = 1 ∧
    (engineMain (engineMain c1World false).world false).eff.fsMuts = 0 ∧
    (engineMain (engineMain c1World false).world false).eff.renameOk = 0 ∧
    (engineMain (engineMain c1World false).world false).eff.docWrites = 1 := by
  decide

/-!
## Backups (claim C7)
-/

/-- Every entry path of a tree. -/
def allPaths : FSForest → List (List Char) → List (List (List Char))
  | .nil, _ => []
  | .consDir n c rest, p => (p ++ [n]) :: (allPaths c (p ++ [n]) ++ allPaths rest p)
  | .consYml n _ rest, p => (p ++ [n]) :: allPaths rest p
  | .consFile n rest, p => (p ++ [n]) :: allPaths rest p
  | .consLink n rest, p => (p ++ [n]) :: allPaths rest p

/-- A valid tree with one valid role and a playbook holding one hyphenated
reference: a live run rewrites the playbook and nothing else. -/
def c7World : FSForest :=
  .consDir (strL "roles")
    (.consDir (strL "ok_role") (.consDir (strL "tasks") .nil .nil) .nil)
    (.consYml (strL "site.yml")
      (.seqCons (.mapCons (strL "role") (.str (strL "a-b.c")) .mapNil) .seqNil)
      .nil)

/-- C7 counterexample: on `c7World` a live (non-dry, backups nowhere
disabled — `fix_role_name.py` has no backup option at all) run rewrites
`site.yml` on disk, yet the tree's set of paths is unchanged: no timestamped
backup copy (no file of any kind) was created before the overwrite. -/
theorem update_yaml_file_writes_no_backup :
    (engineMain c7World false).eff.docWrites = 1 ∧
    getYmlAt (engineMain c7World false).world [strL "site.yml"] =
      some (.seqCons (.mapCons (strL "role") (.str (strL "a_bc")) .mapNil) .seqNil) ∧
    getYmlAt c7World [strL "site.yml"] =
      some (.seqCons (.mapCons (strL "role") (.str (strL "a-b.c")) .mapNil) .seqNil) ∧
    allPaths (engineMain c7World false).world [] = allPaths c7World [] := by
  decide

/-- The readable state of a `meta/main.yml` before `fix_meta_file` touches
it: absent, empty/whitespace, unparseable, or parsed to a value. -/
inductive MetaIn where
  | absent
  | emptyFile
  | unparseable (raw : List Char)
  | parsed (v : YVal)
deriving DecidableEq, Repr

def existedB : MetaIn → Bool
  | .absent => false
  | _ => true

/-- Python `str.strip()`. -/
def pyStrip (s : List Char) : List Char :=
  ((s.dropWhile isPySpace).reverse.dropWhile isPySpace).reverse

/-- The metadata normalization of `fix_meta_file` (`fix_role_meta.py` lines
86-136): load or reset the document, ensure `galaxy_info` is a mapping with
a description and `standalone`, optionally `min_ansible_version`, and ensure
a `dependencies` list; returns the new document and the changed flag. -/
def fix_meta_core (input : MetaIn) (descFormatted : List Char)
    (minAnsible : Option (List Char)) : YVal × Bool :=
  let desired := pyStrip descFormatted
  let s0 : YVal × Bool :=
    match input with
    | .absent => (.mapNil, true)
    | .emptyFile => (.mapNil, true)
    | .unparseable _ => (.mapNil, true)
    | .parsed v =>
        match v with
        | .mapCons k x r => (.mapCons k x r, false)
        | .mapNil => (.mapNil, false)
        | _ => (.mapNil, true)
  let gi0 := ymGet s0.1 (strL "galaxy_info")
  let giIsDict : Bool :=
    match gi0 with
    | some (.mapCons _ _ _) => true
    | some .mapNil => true
    | _ => false
  let gi1 : YVal := if giIsDict then (gi0.getD .mapNil) else .mapNil
  let changed1 := s0.2 || !giIsDict
  let descOk : Bool :=
    match ymGet gi1 (strL "description") with
    | some (.str s) => !(pyStrip s).isEmpty
    | _ => false
  let gi2 := if descOk then gi1 else ymSetOrAdd gi1 (strL "description") (.str desired)
  let changed2 := changed1 || !descOk
  let hasStandalone := (ymGet gi2 (strL "standalone")).isSome
  let gi3 := if hasStandalone then gi2 else ymSetOrAdd gi2 (strL "standalone") (.bool false)
  let changed3 := changed2 || !hasStandalone
  let s4 : YVal × Bool :=
    match minAnsible with
    | none => (gi3, changed3)
    | some mav =>
        let mavOk : Bool :=
          match ymGet gi3 (strL "min_ansible_version") with
          | some (.str s) => !(pyStrip s).isEmpty
          | _ => false
        (if mavOk then gi3 else ymSetOrAdd gi3 (strL "min_ansible_version") (.str mav),
         changed3 || !mavOk)
  let data1 := ymSetOrAdd s0.1 (strL "galaxy_info") s4.1
  let depsOk : Bool :=
    match ymGet data1 (strL "dependencies") with
    | some .null => false
    | some _ => true
    | none => false
  let data2 := if depsOk then data1 else ymSetOrAdd data1 (strL "dependencies") .seqNil
  (data2, s4.2 || !depsOk)

/-- The observable outcome of one `fix_meta_file` call. -/
structure MetaOut where
  changed : Bool
  wroteBackup : Bool
  backupName : Option (List Char)
  written : Option YVal
deriving DecidableEq, Repr

/-- `fix_meta_file` (`fix_role_meta.py` lines 67-155): no writes when
nothing changed or in dry-run; otherwise a timestamped `.bak` copy is made
first when the file existed and backups are enabled, then the file is
written.  The `description_template.format(role=...)` result is a
parameter; `utc_stamp()` is the `stamp` parameter. -/
def fix_meta_file (input : MetaIn) (descFormatted : List Char)
    (minAnsible : Option (List Char)) (dry mkBackup : Bool)
    (path stamp : List Char) : MetaOut :=
  let r := fix_meta_core input descFormatted minAnsible
  if !r.2 then ⟨false, false, none, none⟩
  else if dry then ⟨true, false, none, none⟩
  else if existedB input && mkBackup then
    ⟨true, true, some (path ++ strL ".bak." ++ stamp), some r.1⟩
  else ⟨true, false, none, some r.1⟩

theorem allPaths_setYmlEntry :
    ∀ (f : FSForest) (n : List Char) (d : YVal) (q : List (List Char)),
      allPaths (setYmlEntry f n d) q = allPaths f q := by
  intro f
  induction f with
  | nil => intro n d q; rfl
  | consDir m c rest ihc ihrest =>
      intro n d q
      simp only [setYmlEntry, allPaths, ihrest]
  | consYml m d0 rest ihrest =>
      intro n d q
      simp only [setYmlEntry]
      split
      · rename_i hm
        simp [allPaths, hm]
      · simp only [allPaths, ihrest]
  | consFile m rest ihrest =>
      intro n d q
      simp only [setYmlEntry, allPaths, ihrest]
  | consLink m rest ihrest =>
      intro n d q
      simp only [setYmlEntry, allPaths, ihrest]

theorem allPaths_updateDirEntry :
    ∀ (f : FSForest) (n : List Char) (g : FSForest → FSForest),
      (∀ (c : FSForest) (q' : List (List Char)), allPaths (g c) q' = allPaths c q') →
      ∀ q : List (List Char), allPaths (updateDirEntry f n g) q = allPaths f q := by
  intro f
  induction f with
  | nil => intro n g _ q; rfl
  | consDir m c rest ihc ihrest =>
      intro n g hg q
      simp only [updateDirEntry]
      split
      · simp only [allPaths, hg]
      · simp only [allPaths, ihrest n g hg]
  | consYml m d rest ihrest =>
      intro n g hg q
      simp only [updateDirEntry]
      split
      · rfl
      · simp only [allPaths, ihrest n g hg]
  | consFile m rest ihrest =>
      intro n g hg q
      simp only [updateDirEntry]
      split
      · rfl
      · simp only [allPaths, ihrest n g hg]
  | consLink m rest ihrest =>
      intro n g hg q
      simp only [updateDirEntry]
      split
      · rfl
      · simp only [allPaths, ihrest n g hg]

theorem allPaths_setYmlAt :
    ∀ (p : List (List Char)) (f : FSForest) (d : YVal) (q : List (List Char)),
      allPaths (setYmlAt f p d) q = allPaths f q := by
  intro p
  induction p with
  | nil => intro f d q; rfl
  | cons n rest ih =>
      intro f d q
      cases rest with
      | nil => exact allPaths_setYmlEntry f n d q
      | cons a b =>
          simp only [setYmlAt]
          exact allPaths_updateDirEntry f n _ (fun c q' => ih c d q') q

theorem runUpdates_preserves_paths (dry : Bool) (rmap : List (List Char × List Char))
    (files : List (List (List Char))) (w : FSForest) (e : Effects) :
    allPaths (runUpdates dry rmap files w e).1 [] = allPaths w [] := by
  unfold runUpdates
  refine foldl_invariant (fun st : FSForest × Effects => allPaths st.1 [] = allPaths w [])
    _ ?_ files (w, e) rfl
  intro st fp hP
  refine foldl_invariant (fun st : FSForest × Effects => allPaths st.1 [] = allPaths w [])
    _ ?_ rmap st hP
  intro st' kv hP'
  cases getYmlAt st'.1 fp with
  | none => exact hP'
  | some d =>
      simp only
      split
      · simp only
        rw [allPaths_setYmlAt]
        exact hP'
      · exact hP'

/-- C7 amended — backup policy of the two writers: `fix_meta_file` (the
meta-fixing pass) writes a timestamped `.bak` copy before overwriting an
existing document in a live run with backups enabled; the reference
rewriter `update_yaml_file` writes no backup at all — its sweep never
creates or removes a file (it only replaces document contents in place). -/
theorem backup_policy :
    (∀ (input : MetaIn) (df : List Char) (mA : Option (List Char)) (mkB : Bool)
        (path stamp : List Char),
        existedB input = true → mkB = true →
        (fix_meta_file input df mA false mkB path stamp).changed = true →
        (fix_meta_file input df mA false mkB path stamp).wroteBackup = true ∧
        (fix_meta_file input df mA false mkB path stamp).backupName =
          some (path ++ strL ".bak." ++ stamp)) ∧
    (∀ (dry : Bool) (rmap : List (List Char × List Char))
        (files : List (List (List Char))) (w : FSForest) (e : Effects),
        allPaths (runUpdates dry rmap files w e).1 [] = allPaths w []) := by
  constructor
  · intro input df mA mkB path stamp hex hmk hch
    unfold fix_meta_file at hch ⊢
    simp only [hex, hmk] at hch ⊢
    cases hr : (fix_meta_core input df mA).2 with
    | false =>
        simp only [hr] at hch
        simp at hch
    | true =>
        simp only [hr] at hch ⊢
        simp
  · exact runUpdates_preserves_paths

/-- Witness for the amended C7 theorem: a parsed but incomplete meta file is
changed, and its backup carries the timestamp. -/
theorem backup_policy_witness :
    (fix_meta_file (.parsed (.mapCons (strL "galaxy_info") .mapNil .mapNil))
      (strL "Role x") none false true (strL "/r/m.yml") (strL "20260101T000000Z")).wroteBackup
      = true ∧
    (fix_meta_file (.parsed (.mapCons (strL "galaxy_info") .mapNil .mapNil))
      (strL "Role x") none false true (strL "/r/m.yml") (strL "20260101T000000Z")).backupName
      = some (strL "/r/m.yml" ++ strL ".bak." ++ strL "20260101T000000Z") :=
  backup_policy.1 (.parsed (.mapCons (strL "galaxy_info") .mapNil .mapNil))
    (strL "Role x") none true (strL "/r/m.yml") (strL "20260101T000000Z")
    (by decide) (by decide) (by decide)

/-!
## Exception totality of `update_yaml_file` (claim C10)
-/

/-- The readable state of a file for `update_yaml_file`: missing (`open`
raises `OSError`), readable but not YAML-parseable (`yaml.safe_load` raises
`YAMLError`, handled by the inner handler at source lines 149-153), or
parsed to a document. -/
inductive PyFileIn where
  | missing
  | rawText (content : List Char)
  | doc (d : YVal)
deriving DecidableEq, Repr

inductive PyExc where
  | osError
  | writeError
deriving DecidableEq, Repr

inductive PyAbort where
  | systemExit
deriving DecidableEq, Repr

/-- The body of `update_yaml_file` inside the `try` (source lines 135-243),
with its failure points surfaced in `Except`: reading may raise, an
unparseable document is handled by the inner `yaml.YAMLError` handler
(return `False`), and the write may raise.  The value carries the returned
flag and the written document, if any. -/
def update_yaml_file_body (file : PyFileIn) (writeFails : Bool)
    (rmap : List (List Char × List Char)) (old new : List Char) (dry : Bool) :
    Except PyExc (Bool × Option YVal) :=
  match file with
  | .missing => .error .osError
  | .rawText content =>
      if !(containsSub content old) then .ok (false, none)
      else if foreignCheck content then .ok (false, none)
      else .ok (false, none)
  | .doc d =>
      let r := update_yaml_file_doc rmap old new d
      if r.1 && !dry then
        if writeFails then .error .writeError else .ok (true, some r.2)
      else .ok (r.1, none)

/-- `update_yaml_file` at its interface (source lines 128-247):
`require_pyyaml` (line 130) may abort with `SystemExit`, which is not an
`Exception` and escapes; every exception of the body is caught by the
`except Exception` handler (lines 245-247), which logs and reports no
change. -/
def update_yaml_file_total (pyyamlAvailable : Bool) (file : PyFileIn)
    (writeFails : Bool) (rmap : List (List Char × List Char)) (old new : List Char)
    (dry : Bool) : Except PyAbort (Bool × Option YVal) :=
  if !pyyamlAvailable then .error .systemExit
  else
    match update_yaml_file_body file writeFails rmap old new dry with
    | .ok r => .ok r
    | .error _ => .ok (false, none)

/-- C10 — `update_yaml_file` is total at its interface: with PyYAML present
it always returns a value (never propagates an exception); without PyYAML
the only escaping abort is the `SystemExit` of `require_pyyaml`; a failing
read, an unparseable document, and a failing write are all absorbed into a
`False` (no-change) return. -/
theorem update_yaml_file_total_interface (pyyaml : Bool) (file : PyFileIn)
    (wfl : Bool) (rmap : List (List Char × List Char)) (old new : List Char)
    (dry : Bool) :
    (pyyaml = true →
      ∃ r, update_yaml_file_total pyyaml file wfl rmap old new dry = .ok r) ∧
    (pyyaml = false →
      update_yaml_file_total pyyaml file wfl rmap old new dry = .error .systemExit) ∧
    (pyyaml = true → file = .missing →
      update_yaml_file_total pyyaml file wfl rmap old new dry = .ok (false, none)) ∧
    (∀ raw, pyyaml = true → file = .rawText raw →
      update_yaml_file_total pyyaml file wfl rmap old new dry = .ok (false, none)) ∧
    (∀ d, pyyaml = true → file = .doc d → wfl = true → dry = false →
      (update_yaml_file_doc rmap old new d).1 = true →
      update_yaml_file_total pyyaml file wfl rmap old new dry = .ok (false, none)) := by
  refine ⟨?_, ?_, ?_, ?_, ?_⟩
  · intro hp
    subst hp
    unfold update_yaml_file_total
    simp only [Bool.not_true, Bool.false_eq_true, if_false]
    cases update_yaml_file_body file wfl rmap old new dry with
    | ok r => exact ⟨r, rfl⟩
    | error e => exact ⟨(false, none), rfl⟩
  · intro hp
    subst hp
    rfl
  · intro hp hf
    subst hp
    subst hf
    rfl
  · intro raw hp hf
    subst hp
    subst hf
    have hb : update_yaml_file_body (.rawText raw) wfl rmap old new dry =
        .ok (false, none) := by
      simp only [update_yaml_file_body]
      split
      · rfl
      · split <;> rfl
    unfold update_yaml_file_total
    simp [hb]
  · intro d hp hf hw hd hr
    subst hp
    subst hf
    subst hw
    subst hd
    unfold update_yaml_file_total update_yaml_file_body
    simp only [hr]
    simp

/-- Witness for C10 at a concrete input: a missing file yields a `False`
return rather than an exception. -/
theorem update_yaml_file_total_interface_witness :
    update_yaml_file_total true .missing false [] (strL "aa") (strL "bb") false =
      .ok (false, none) :=
  (update_yaml_file_total_interface true .missing false [] (strL "aa") (strL "bb")
    false).2.2.1 rfl rfl
